import Mathlib

/-!
# Verification of the friendly_data IAMC conversion engine

A shallow embedding of the parts of `friendly_data` (sentinel-energy) that the
claims concern: the string helpers (`helpers.py`), the package index validation
(`dpkg.py`), the resource reader dispatch (`converters.py`), the custom registry
overlay (`registry.py`), and the IAMC composer/decomposer (`iamc.py`).

Tables (`pandas.DataFrame` with a `MultiIndex` and a single data column) are
modelled as `Frame`: a list of index level names, the data column name, and a
list of rows, each row being the list of index values (aligned with the names)
plus an integer data value.  Python exceptions are modelled with
`Except String`; functions that `pandas` makes partial return `Option`/`Except`.
-/

namespace FriendlyData

/-! ## String helpers (helpers.py) -/

/-- Number of occurrences of character `c` in `s`. -/
def countChar (c : Char) (s : String) : Nat := s.toList.countP (· = c)

/-- `helpers.is_fmtstr`:
`bool(opening_braces and closing_braces and opening_braces == closing_braces)`. -/
def is_fmtstr (s : String) : Bool :=
  let opening_braces := countChar '{' s
  let closing_braces := countChar '}' s
  (opening_braces != 0) && (closing_braces != 0) && (opening_braces == closing_braces)

/-- Python `str.lower` on one character (ASCII; the identifiers and variable
names in index files are ASCII). -/
def lowerChar (c : Char) : Char :=
  if 'A' ≤ c ∧ c ≤ 'Z' then Char.ofNat (c.toNat + 32) else c

/-- Python `str.lower`. -/
def pyLower (s : String) : String := String.mk (s.toList.map lowerChar)

/-- Last-`/`-separated component of a path. -/
def pathName (p : String) : String :=
  match (p.toList.reverse.takeWhile (· ≠ '/')).reverse with
  | l => String.mk l

/-- `pathlib.Path(..).stem`: final component without its last extension. -/
def pyStem (p : String) : String :=
  let name := (pathName p).toList
  match name with
  | [] => ""
  | c₀ :: rest =>
    if rest.contains '.' then
      String.mk (c₀ :: (rest.reverse.dropWhile (· ≠ '.')).reverse.dropLast)
    else String.mk name

/-- `pathlib.Path(..).suffix`: last extension of the final component (with the
dot), empty when there is none. -/
def pySuffix (p : String) : String :=
  let name := (pathName p).toList
  match name with
  | [] => ""
  | _ :: rest =>
    if rest.contains '.' then String.mk ('.' :: (rest.reverse.takeWhile (· ≠ '.')).reverse)
    else ""

/-- Python `str.strip(".")`: remove leading and trailing dots. -/
def stripDots (s : String) : String :=
  String.mk (((s.toList.dropWhile (· = '.')).reverse.dropWhile (· = '.')).reverse)

/-! ### `"|".join` / `str.split("|")` at the character level -/

/-- `sep.join(parts)` on character lists. -/
def joinSep (sep : Char) : List (List Char) → List Char
  | [] => []
  | [k] => k
  | k :: ks => k ++ sep :: joinSep sep ks

/-- Helper for `splitSep`: `acc` holds the current fragment reversed. -/
def splitSepAux (sep : Char) : List Char → List Char → List (List Char)
  | [], acc => [acc.reverse]
  | c :: cs, acc =>
    if c = sep then acc.reverse :: splitSepAux sep cs []
    else splitSepAux sep cs (c :: acc)

/-- Python `str.split(sep)` on character lists (note `"".split(sep) = [""]`). -/
def splitSep (sep : Char) (l : List Char) : List (List Char) := splitSepAux sep l []

/-- `"|".join(keys)` as used in `IAMconv._varwidx`. -/
def pyJoin (sep : Char) (ks : List String) : String :=
  String.mk (joinSep sep (ks.map String.toList))

/-- `s.split("|")` as used in `IAMconv._varwidx`. -/
def pySplit (sep : Char) (s : String) : List String :=
  (splitSep sep s.toList).map String.mk

/-! ### Python `str.format` with keyword arguments

Only the feature subset exercised by the index files is modelled: `{name}`
placeholders and `{{`/`}}` escapes (no format specs, no positional fields).
A missing keyword or a stray brace raises in Python; here it yields `none`.
The recursion is fuelled so that the kernel can evaluate it. -/

/-- Split `rest` at the closing `}` of a placeholder: `(name, remainder)`. -/
def splitPlaceholder (rest : List Char) : Option (List Char × List Char) :=
  match rest.dropWhile (· ≠ '}') with
  | '}' :: rest' => some (rest.takeWhile (· ≠ '}'), rest')
  | _ => none

def pyformatGo (args : List (String × String)) : Nat → List Char → Option (List Char)
  | _, [] => some []
  | 0, _ :: _ => none
  | fuel + 1, '{' :: '{' :: rest => (pyformatGo args fuel rest).map ('{' :: ·)
  | fuel + 1, '}' :: '}' :: rest => (pyformatGo args fuel rest).map ('}' :: ·)
  | fuel + 1, '{' :: rest =>
    match splitPlaceholder rest with
    | some (name, rest') =>
      match (args.lookup (String.mk name)), pyformatGo args fuel rest' with
      | some v, some tail => some (v.toList ++ tail)
      | _, _ => none
    | none => none
  | _ + 1, '}' :: _ => none
  | fuel + 1, c :: rest => (pyformatGo args fuel rest).map (c :: ·)

/-- `tmpl.format(**args)`. -/
def pyformat (tmpl : String) (args : List (String × String)) : Option String :=
  (pyformatGo args (tmpl.length + 1) tmpl.toList).map String.mk

/-! ## Package index validation (dpkg.py, `pkgindex`) -/

/-- Values appearing in an index (YAML/JSON) record. -/
inductive JVal where
  | str (s : String)
  | int (n : Int)
  | arr (l : List JVal)
  | dict (l : List (String × JVal))

/-- `isinstance(v, str)`. -/
def JVal.isStr : JVal → Bool
  | .str _ => true
  | _ => false

/-- `isinstance(v, int)`. -/
def JVal.isInt : JVal → Bool
  | .int _ => true
  | _ => false

/-- glom spec `[str]`: a list of strings. -/
def JVal.isListStr : JVal → Bool
  | .arr l => l.all JVal.isStr
  | _ => false

/-- glom spec `{str: str}`. -/
def JVal.isDictStrStr : JVal → Bool
  | .dict l => l.all (fun kv => kv.2.isStr)
  | _ => false

/-- glom spec `{"values": [str], "variable": str}` (all keys required, no
others permitted). -/
def JVal.isAggRule : JVal → Bool
  | .dict l =>
    l.all (fun kv =>
      if kv.1 = "values" then kv.2.isListStr
      else if kv.1 = "variable" then kv.2.isStr
      else false)
    && (l.map Prod.fst).contains "values" && (l.map Prod.fst).contains "variable"
  | _ => false

/-- glom spec `{str: [{"values": [str], "variable": str}]}`. -/
def JVal.isAggMap : JVal → Bool
  | .dict l =>
    l.all (fun kv =>
      match kv.2 with
      | .arr rules => rules.all JVal.isAggRule
      | _ => false)
  | _ => false

/-- The fixed whitelist of keys of `pkgindex._key_map`. -/
def pkgindexKeys : List String :=
  ["path", "idxcols", "name", "description", "skip", "alias", "sheet", "iamc", "agg"]

/-- The per-key value spec of `pkgindex._key_map`. -/
def keyTypeOk (k : String) (v : JVal) : Bool :=
  if k = "path" then v.isStr
  else if k = "idxcols" then v.isListStr
  else if k = "name" then v.isStr
  else if k = "description" then v.isStr
  else if k = "skip" then v.isInt
  else if k = "alias" then v.isDictStrStr
  else if k = "sheet" then v.isInt || v.isStr
  else if k = "iamc" then v.isStr
  else if k = "agg" then v.isAggMap
  else false

/-- Check each key of a record against the `Match` spec built from
`pkgindex._key_map`; an unknown key (or a value of the wrong shape) raises
`MatchError` carrying the offending key. -/
def checkKeys : List (String × JVal) → Except String Unit
  | [] => .ok ()
  | (k, v) :: rest =>
    if k ∈ pkgindexKeys then
      if keyTypeOk k v then checkKeys rest else .error k
    else .error k

/-- Validation of one record: every key must match the spec, and the one
non-`_optional` key `"path"` must be present. -/
def validateRecord (r : List (String × JVal)) : Except String Unit :=
  match checkKeys r with
  | .error e => .error e
  | .ok () => if (r.map Prod.fst).contains "path" then .ok () else .error "path"

/-- `pkgindex._validate`: validate every record, propagating the first
`MatchError` (whose payload is the offending key). -/
def pkgindex_validate :
    List (List (String × JVal)) → Except String (List (List (String × JVal)))
  | [] => .ok []
  | r :: rest =>
    match validateRecord r with
    | .error e => .error e
    | .ok () =>
      match pkgindex_validate rest with
      | .error e => .error e
      | .ok rest' => .ok (r :: rest')

/-! ## Resource reading (converters.py) -/

/-- `converters._pd_readers`: the supported source types. -/
def pd_readers : List String := ["csv", "xls", "xlsx"]

/-- `converters._source_type`: deduce the file type from the extension;
unsupported extensions raise `ValueError` (modelled by `.error`). -/
def source_type (source : String) : Except String String :=
  let source_t := pyLower (stripDots (pySuffix source))
  if source_t ∈ pd_readers then .ok source_t
  else .error ("unsupported source: " ++ source)

/-- Index values are strings, the single data column holds integers.
`names` are the `MultiIndex` level names; each row pairs the level values
(aligned with `names`) with the data value. -/
structure Frame where
  names : List String
  colName : String
  rows : List (List String × Int)
deriving Repr, DecidableEq

/-- `pd.DataFrame()`. -/
def emptyFrame : Frame := { names := [], colName := "", rows := [] }

/-- All rows carry one value per index level. -/
def Frame.WF (f : Frame) : Prop := ∀ r ∈ f.rows, r.1.length = f.names.length

instance (f : Frame) : Decidable f.WF := by
  unfold Frame.WF; infer_instance

/-- A data package resource (the fields `to_df` consults besides the schema). -/
structure Resource where
  path : String

/-- `converters.to_df`: dispatching on the source type happens inside the
`try` block (via `_reader`); a `ValueError` is suppressed into an empty
dataframe iff `noexcept` is set.  The actual file read is the external
collaborator `read` (it may itself raise `ValueError`, e.g. on a malformed
file). -/
def converters_to_df (read : String → Except String Frame) (resource : Resource)
    (noexcept : Bool) : Except String Frame :=
  let attempt : Except String Frame :=
    match source_type resource.path with
    | .error e => .error e
    | .ok _ => read resource.path
  match attempt with
  | .ok df => .ok df
  | .error e => if noexcept then .ok emptyFrame else .error e

/-! ## Custom registry overlay (registry.py) -/

/-- A column schema is a dictionary (e.g. `name`, `type`, `constraints`). -/
abbrev ColSchema := List (String × JVal)

/-- The module-global `_custom` dictionary: column type → list of schemas. -/
abbrev RegState := List (String × List ColSchema)

/-- `_custom.get(col_t, [])`. -/
def stateGetD (σ : RegState) (k : String) : List ColSchema :=
  (σ.lookup k).getD []

/-- `d[k] = v` on an association-list dictionary (replace or append). -/
def setKey {α : Type} : List (String × α) → String → α → List (String × α)
  | [], k, v => [(k, v)]
  | (k', v') :: rest, k, v =>
    if k' = k then (k, v) :: rest else (k', v') :: setKey rest k v

/-- Python `dict.update`. -/
def dictUpdate {α : Type} (d upd : List (String × α)) : List (String × α) :=
  upd.foldl (fun acc kv => setKey acc kv.1 kv.2) d

/-- `RegistrySchema` validation: only the keys `"idxcols"` and `"cols"` are
admitted (the base `schschemaema` shape of each column schema is the external
`friendly_data_registry` collaborator, abstracted as `colOk`). -/
def RegistrySchemaOk (colOk : ColSchema → Bool) (conf : RegState) : Bool :=
  conf.all (fun kv => (kv.1 = "idxcols" || kv.1 = "cols") && kv.2.all colOk)

/-- `registry.get`: the base registry entry (external collaborator `base`),
overridden by the first custom schema of the right name, if any. -/
def registry_get (base : String → String → ColSchema) (σ : RegState)
    (col col_t : String) : ColSchema :=
  let reg := base col col_t
  let hasName : ColSchema → Bool := fun sch =>
    match sch.lookup "name" with
    | some (.str s) => s = col
    | _ => false
  let custom := ((stateGetD σ col_t).find? hasName).getD []
  if custom.isEmpty then reg else dictUpdate reg custom

/-- How the body of the `with config_ctx(...)` block exits. -/
inductive BodyExit where
  | normal
  | raises
deriving Repr, DecidableEq

/-- `registry.config_ctx`: save the two overlay entries, update the overlay
when the config validates (on `MatchError` the registry is left unchanged and
the body still runs), run the (read-only) body, and restore the saved entries
in the `finally` clause — which executes both on normal exit and when an
exception propagates through the scope.  Returns the final `_custom` state. -/
def config_ctx (colOk : ColSchema → Bool) (σ : RegState) (conf : RegState)
    (exit : BodyExit) : RegState :=
  let save : RegState := [("idxcols", stateGetD σ "idxcols"), ("cols", stateGetD σ "cols")]
  let σ₁ := if RegistrySchemaOk colOk conf then dictUpdate σ conf else σ
  match exit with
  | .normal => dictUpdate σ₁ save
  | .raises => dictUpdate σ₁ save

/-! ## The IAMC converter (iamc.py, `IAMconv`) -/

/-- `IAMconv._IAMC_IDX = pyam.IAMC_IDX + ["year"]`. -/
def IAMC_IDX : List String := ["model", "scenario", "region", "variable", "unit", "year"]

/-- An index-column definition read from the IAMC config: raw value → IAMC
label (a two-column `(name, iamc)` lookup table, see `IAMconv.read_indices`). -/
abbrev Series := List (String × String)

def seriesKeys (s : Series) : List String := s.map Prod.fst

/-- One value of `IAMconv.indices`: a constant default for a mandatory IAMC
column, or a label series for a user-defined index column. -/
inductive IdxDef where
  | value (v : String)
  | levels (s : Series)

/-- The scalar default stored for mandatory IAMC columns.  (`IAMconv.__init__`
only stores scalars under IAMC column names, see `mkIndices`.) -/
def IdxDef.scalarOf : IdxDef → String
  | .value v => v
  | .levels _ => ""

abbrev Indices := List (String × IdxDef)

/-- `IAMconv.__init__`: config values under a mandatory IAMC column name are
kept as scalar defaults, all others are read as label series — the file read
(`read_indices`) is the external reader collaborator `readLevels`. -/
def mkIndices (conf : List (String × String)) (readLevels : String → Series) : Indices :=
  conf.map (fun cv =>
    (cv.1, if decide (cv.1 ∈ IAMC_IDX) then .value cv.2 else .levels (readLevels cv.2)))

/-- One rule of an `agg` mapping: `{"values": [...], "variable": ...}`
(`var` holds the `"variable"` field). -/
structure AggRule where
  values : List String
  var : String
deriving Repr, DecidableEq

/-- An index entry as consumed by `IAMconv.to_df` via
`res_idx.records(["path", "idxcols", "alias", "iamc", "agg"])`; an absent
`iamc` is the empty string, an absent `agg` the empty mapping.  (Aliases are
resolved by the reader and are not modelled.) -/
structure IndexEntry where
  path : String
  idxcols : List String
  iamc : String
  agg : List (String × List AggRule)
deriving Repr, DecidableEq

/-- Map `f` over a list, failing when any element fails (`Option`-mapM). -/
def omap {α β : Type} (f : α → Option β) : List α → Option (List β)
  | [] => some []
  | a :: as =>
    match f a, omap f as with
    | some b, some bs => some (b :: bs)
    | _, _ => none

def liftO {α : Type} (e : String) : Option α → Except String α
  | some a => .ok a
  | none => .error e

/-- Value of the index level `n` in a row with level names `names` and level
values `vals`. -/
def rowLookup (names vals : List String) (n : String) : Option String :=
  (names.zip vals).lookup n

/-- Python dict lookup where a later binding overwrites an earlier one. -/
def pydictLookup (kvs : List (String × String)) (k : String) : Option String :=
  kvs.reverse.lookup k

/-- `itertools.product` (leftmost factor varies slowest). -/
def cartProd {α : Type} : List (List α) → List (List α)
  | [] => [[]]
  | xs :: rest => xs.flatMap (fun x => (cartProd rest).map (x :: ·))

/-- `helpers.idx_lvl_values`: the distinct values of one index level.  (The
frames built here always carry exact levels, so the level values are the
distinct row values.) -/
def idx_lvl_values (df : Frame) (name : String) : List String :=
  (df.rows.filterMap (fun r => rowLookup df.names r.1 name)).dedup

/-- `df.query(f"{col} in @vals")` on an index level; an unknown level name
raises (`UndefinedVariableError`). -/
def queryLevelIn (df : Frame) (col : String) (vals : List String) : Except String Frame :=
  if decide (col ∈ df.names) then
    .ok { df with rows := df.rows.filter (fun r =>
        match rowLookup df.names r.1 col with
        | some v => vals.contains v
        | none => false) }
  else .error "UndefinedVariableError"

/-- `IAMconv.resolve_idxcol_defaults`: append a constant index level for every
mandatory IAMC column missing from the frame, taking the constant from the
config (`filter_dict` keeps the config order). -/
def resolve_idxcol_defaults (indices : Indices) (df : Frame) : Frame :=
  let defaults := indices.filter (fun cd =>
    decide (cd.1 ∈ IAMC_IDX) && decide (cd.1 ∉ df.names))
  { names := df.names ++ defaults.map Prod.fst
    colName := df.colName
    rows := df.rows.map (fun r => (r.1 ++ defaults.map (fun cd => cd.2.scalarOf), r.2)) }

/-- `IAMconv.index_levels`: `filter_dict(self.indices, set(idxcols) - set(IAMC_IDX))`
(the config order is preserved). -/
def index_levels (indices : Indices) (idxcols : List String) : Indices :=
  indices.filter (fun cd => decide (cd.1 ∈ idxcols) && decide (cd.1 ∉ IAMC_IDX))

/-- Using a scalar default where a label series is expected would raise
(`AttributeError`) in Python. -/
def seriesOfLevels : Indices → Except String (List (String × Series))
  | [] => .ok []
  | (c, .levels s) :: rest => (seriesOfLevels rest).map (fun l => (c, s) :: l)
  | (_, .value _) :: _ => .error "AttributeError: scalar level definition"

/-- `IAMconv.iamcify`: rename the data column to `"value"`, append the
`variable` column as an index level, drop all user-defined index levels, and
reorder the index to exactly `IAMC_IDX` (`reorder_levels` raises unless the
remaining levels are exactly the IAMC tuple; addressing duplicated level
names also raises). -/
def iamcify (df : Frame) (varCol : List String) : Except String Frame :=
  let names₁ := df.names ++ ["variable"]
  let kept := names₁.filter (fun n => decide (n ∈ IAMC_IDX))
  if df.rows.length = varCol.length
      ∧ kept.length = IAMC_IDX.length ∧ (∀ n ∈ IAMC_IDX, n ∈ names₁) ∧ kept.Nodup then
    match omap (fun rv : (List String × Int) × String =>
        (omap (rowLookup names₁ (rv.1.1 ++ [rv.2])) IAMC_IDX).map (fun i => (i, rv.1.2)))
        (df.rows.zip varCol) with
    | some rows' => .ok { names := IAMC_IDX, colName := "value", rows := rows' }
    | none => .error "KeyError: level"
  else .error "reorder_levels: level mismatch"

/-- `IAMconv.agg_vals_all`: `assert len(entry["agg"]) == 1`, then the single
column and the flattened union of all rule values (`set → list`, modelled by
`dedup`; only membership in the union is consumed downstream). -/
def agg_vals_all (agg : List (String × List AggRule)) : Except String (String × List String) :=
  match agg with
  | [(col, conf)] => .ok (col, ((conf.map AggRule.values).flatten).dedup)
  | _ => .error "only support aggregating one column"

/-- Sum-aggregation of rows sharing the same values at `keys`.  (pandas sorts
the group keys; no claim depends on row order, so groups appear in first
occurrence order here.) -/
def upsert (k : List String) (v : Int) : List (List String × Int) → List (List String × Int)
  | [] => [(k, v)]
  | (k', v') :: rest => if k' = k then (k', v' + v) :: rest else (k', v') :: upsert k v rest

def groupbySum (df : Frame) (keys : List String) : Except String Frame :=
  match omap
      (fun r : List String × Int =>
        (omap (rowLookup df.names r.1) keys).map (fun ks => (ks, r.2)))
      df.rows with
  | none => .error "KeyError: groupby"
  | some pairs =>
    .ok { names := keys, colName := df.colName
          rows := pairs.foldl (fun acc kv => upsert kv.1 kv.2 acc) [] }

/-- The loop body of `IAMconv.agg_idxcol` over the rules of one column:
`df.query(f"{col} in @lvls").groupby(rest).sum().assign(variable=var)`
followed by `iamcify` (with `rest = df.index.names.difference([col])`,
an order-preserving difference). -/
def aggRulesGo (df : Frame) (col : String) : List AggRule → Except String (List Frame)
  | [] => .ok []
  | rule :: rest =>
    match queryLevelIn df col rule.values with
    | .error e => .error e
    | .ok sub =>
      match groupbySum sub (df.names.filter (fun n => n ≠ col)) with
      | .error e => .error e
      | .ok grouped =>
        match iamcify grouped (grouped.rows.map (fun _ => rule.var)) with
        | .error e => .error e
        | .ok fr =>
          match aggRulesGo df col rest with
          | .error e => .error e
          | .ok frs => .ok (fr :: frs)

/-- `IAMconv.agg_idxcol`. -/
def agg_idxcol (df : Frame) (col : String) (entry : IndexEntry) :
    Except String (List Frame) :=
  match entry.agg.lookup col with
  | none => .error "KeyError: agg"
  | some rules => aggRulesGo df col rules

/-- The level restriction of `IAMconv.to_df`:
`vals.loc[vals.index.difference(agg_vals).intersection(idx_lvl_values(df.index, col))]`.
After the residual `query`, the dataframe's `MultiIndex` retains the pre-query
levels, so the intersection is taken against the values of the unfiltered
frame `df`; in the branch without aggregation `aggVals` is empty and the
difference is the identity. -/
def restrictLevels (lvls : List (String × Series)) (aggVals : List String) (df : Frame) :
    List (String × Series) :=
  lvls.map (fun cs => (cs.1, cs.2.filter (fun kv =>
    !(aggVals.contains kv.1) && (idx_lvl_values df cs.1).contains kv.1)))

/-- `df.loc[idxslice(df.index.names, {col: val.index for ...})]`: keep the rows
whose value at every selected level is among the allowed labels (levels
without a selection match anything). -/
def locSelect (df : Frame) (sel : List (String × List String)) : Frame :=
  { df with rows := df.rows.filter (fun r =>
      (df.names.zip r.1).all (fun nv =>
        match sel.lookup nv.1 with
        | some allowed => allowed.contains nv.2
        | none => true)) }

/-- The per-row IAMC variable of the template branch of `IAMconv.to_df`:
map each restricted level's row value through its label series and format the
template with the labels (a raw value absent from the series maps to NaN,
which `str.format` renders as `"nan"`). -/
def iamcVariable (tmpl : String) (df : Frame) (lvls : List (String × Series)) :
    Except String (List String) :=
  match omap
    (fun r : List String × Int =>
      pyformat tmpl (lvls.map (fun cs =>
        (cs.1, ((rowLookup df.names r.1 cs.1).bind (fun k => cs.2.lookup k)).getD "nan"))))
    df.rows with
  | none => .error "KeyError: format"
  | some vs => .ok vs

/-- The tail of the `IAMconv.to_df` loop body (lines 418–435): the template
branch restricts the frame with `df.loc`, computes the per-row variable and
finalises with `iamcify`; the literal branch assigns the configured string to
every row and finalises — without any restriction of the frame. -/
def residual_frame (entry : IndexEntry) (df : Frame) (lvls : List (String × Series)) :
    Except String Frame :=
  if is_fmtstr entry.iamc then
    match iamcVariable entry.iamc
        (locSelect df (lvls.map (fun cs => (cs.1, seriesKeys cs.2)))) lvls with
    | .error e => .error e
    | .ok vars => iamcify (locSelect df (lvls.map (fun cs => (cs.1, seriesKeys cs.2)))) vars
  else
    iamcify df (df.rows.map (fun _ => entry.iamc))

/-- The loop body of `IAMconv.to_df` for one matched entry and the frame read
from its file: resolve defaults, resolve user levels, aggregate if requested
(removing the aggregated values from the level universe), then build the
residual fragment.  Returns the fragments appended to `dfs`. -/
def composeEntry (indices : Indices) (entry : IndexEntry) (df0 : Frame) :
    Except String (List Frame) :=
  let df₁ := resolve_idxcol_defaults indices df0
  match seriesOfLevels (index_levels indices df₁.names) with
  | .error e => .error e
  | .ok lvls =>
    if entry.agg.isEmpty then
      match residual_frame entry df₁ (restrictLevels lvls [] df₁) with
      | .error e => .error e
      | .ok fr => .ok [fr]
    else
      match agg_vals_all entry.agg with
      | .error e => .error e
      | .ok ca =>
        match queryLevelIn df₁ ca.1 ca.2 with
        | .error e => .error e
        | .ok dfAgg =>
          match agg_idxcol dfAgg ca.1 entry with
          | .error e => .error e
          | .ok aggFrames =>
            match lvls.lookup ca.1 with
            | none => .error "KeyError: agg column"
            | some colSer =>
              match queryLevelIn df₁ ca.1 (seriesKeys colSer) with
              | .error e => .error e
              | .ok df₂ =>
                match residual_frame entry df₂ (restrictLevels lvls ca.2 df₁) with
                | .error e => .error e
                | .ok fr => .ok (aggFrames ++ [fr])

/-- `IAMconv.f2col`: deduce the column name from the file name. -/
def f2col (fpath : String) : String := pyStem fpath

/-- The per-row match predicate of `_varwidx`:
`variable.str.lower() == list(@values)` (membership of the case-folded
variable among the dictionary keys). -/
def varwidxMatches (values : List (String × String)) (s : String) : Bool :=
  (pydictLookup values (pyLower s)).isSome

/-- One decomposed row of `_varwidx`: look up the case-folded variable in the
reverse dictionary, split the joined keys (`idxcols.columns = _lvls.keys()`
requires one split field per user level), and append them to the remaining
index values. -/
def varwidxRow (names : List String) (values : List (String × String))
    (restNames : List String) (nLvls : Nat) (r : List String × Int) :
    Option (List String × Int) :=
  match rowLookup names r.1 "variable" with
  | none => none
  | some s =>
    match pydictLookup values (pyLower s) with
    | none => none
    | some joined =>
      if (pySplit '|' joined).length = nLvls then
        (omap (rowLookup names r.1) restNames).map
          (fun rest => (rest ++ pySplit '|' joined, r.2))
      else none

/-- `IAMconv._varwidx` (decomposition): build the reverse dictionary mapping
each case-folded formatted template over the full Cartesian product of the
configured level values to the `"|"`-joined raw keys (a later product tuple
overwrites an earlier one), select the rows whose case-folded `variable`
appears in it, split the joined keys back into user index levels, and rename
the value column after the destination file.  (The `from_df` write of the
result is I/O and out of scope; the written frame is returned.) -/
def _varwidx (indices : Indices) (entry : IndexEntry) (df : Frame) :
    Except String Frame :=
  match seriesOfLevels (index_levels indices entry.idxcols) with
  | .error e => .error e
  | .ok lvls =>
    match omap
        (fun kv : List String × List String =>
          (pyformat entry.iamc ((lvls.map Prod.fst).zip kv.2)).map
            (fun s => (pyLower s, pyJoin '|' kv.1)))
        ((cartProd (lvls.map (fun cs => cs.2.map Prod.fst))).zip
          (cartProd (lvls.map (fun cs => cs.2.map Prod.snd)))) with
    | none => .error "KeyError: format"
    | some values =>
      if decide ("variable" ∈ df.names) then
        if df.colName = "value" then
          match omap
              (varwidxRow df.names values (df.names.filter (fun n => n ≠ "variable"))
                lvls.length)
              (df.rows.filter (fun r =>
                match rowLookup df.names r.1 "variable" with
                | some s => varwidxMatches values s
                | none => false)) with
          | none => .error "KeyError: level"
          | some rows' =>
            .ok { names := df.names.filter (fun n => n ≠ "variable") ++ lvls.map Prod.fst
                  colName := f2col entry.path
                  rows := rows' }
        else .error "KeyError: value"
      else .error "KeyError: variable"

/-! ## The conversion driver (`IAMconv.to_df`) -/

/-- The converter state: resolved config indices and the index entries that
carry an `iamc` mapping (`res_idx`). -/
structure IAMconvM where
  indices : Indices
  res_idx : List IndexEntry

/-- `IAMconv.__init__`: `res_idx` keeps the entries with a truthy `iamc`. -/
def mkResIdx (idx : List IndexEntry) : List IndexEntry :=
  idx.filter (fun e => !e.iamc.isEmpty)

/-- The entries whose `path` equals the item. -/
def matchEntries (conv : IAMconvM) (fpath : String) : List IndexEntry :=
  conv.res_idx.filter (fun e => e.path = fpath)

def dupWarning (entry : IndexEntry) : String :=
  entry.path ++ ": duplicate entries, picking first"

def emptyWarning : String := "empty data set, check config and index file"

/-- The file loop of `IAMconv.to_df`: skip files without a matching entry,
warn on duplicate matches (picking the first), read the file (the external
reader collaborator `read`) and extend `dfs` with the entry's fragments. -/
def to_df_go (conv : IAMconvM) (read : String → Frame) :
    List String → List Frame → List String → Except String (List Frame × List String)
  | [], dfs, warns => .ok (dfs, warns)
  | fpath :: files, dfs, warns =>
    match matchEntries conv fpath with
    | [] => to_df_go conv read files dfs warns
    | entry :: rest =>
      match composeEntry conv.indices entry (read fpath) with
      | .error e => .error e
      | .ok frames =>
        to_df_go conv read files (dfs ++ frames)
          (if rest.isEmpty then warns else warns ++ [dupWarning entry])

/-- `IAMconv.to_df`: run the loop, then `pd.concat(dfs, axis=0)` — which
raises `ValueError` when `dfs` is empty — and warn when the concatenated
result is empty.  Returns the frame together with the warnings logged.
(All fragments share the `IAMC_IDX` index, so concatenation keeps the first
frame's level names.) -/
def IAMconv_to_df (conv : IAMconvM) (read : String → Frame) (files : List String) :
    Except String (Frame × List String) :=
  match to_df_go conv read files [] [] with
  | .error e => .error e
  | .ok (dfs, warns) =>
    match dfs with
    | [] => .error "ValueError: No objects to concatenate"
    | d :: ds =>
      let cat : Frame := { names := d.names, colName := d.colName
                           rows := ((d :: ds).map Frame.rows).flatten }
      if cat.rows.isEmpty then .ok (cat, warns ++ [emptyWarning]) else .ok (cat, warns)

/-! ## Equality of tables up to column order -/

/-- The two rows assign the same value to every level name of `ns₁`. -/
def rowAgrees (ns₁ : List String) (r₁ : List String) (ns₂ : List String)
    (r₂ : List String) : Bool :=
  ns₁.all (fun n => rowLookup ns₁ r₁ n == rowLookup ns₂ r₂ n)

def rowsEquiv (ns₁ ns₂ : List String) :
    List (List String × Int) → List (List String × Int) → Bool
  | [], [] => true
  | r :: rs, s :: ss => r.2 == s.2 && rowAgrees ns₁ r.1 ns₂ s.1 && rowsEquiv ns₁ ns₂ rs ss
  | _, _ => false

/-- Same index columns, and row for row the same values under every column
name — table equality modulo column ordering (the data column name is not
compared). -/
def Frame.equiv (f g : Frame) : Bool :=
  f.names.all (fun n => decide (n ∈ g.names)) && g.names.all (fun n => decide (n ∈ f.names))
    && rowsEquiv f.names g.names f.rows g.rows

/-! ## Helper lemmas -/

theorem lookup_setKey {α : Type} (d : List (String × α)) (k k' : String) (v : α) :
    List.lookup k (setKey d k' v) = if k = k' then some v else List.lookup k d := by
  induction d with
  | nil =>
    by_cases h : k = k'
    · have hb : (k == k') = true := beq_iff_eq.mpr h
      simp [setKey, List.lookup, hb, h]
    · have hb : (k == k') = false := by
        simpa using h
      simp [setKey, List.lookup, hb, h]
  | cons kv rest ih =>
    obtain ⟨k₀, v₀⟩ := kv
    by_cases h₀ : k₀ = k'
    · subst h₀
      by_cases h : k = k₀
      · have hb : (k == k₀) = true := beq_iff_eq.mpr h
        simp [setKey, List.lookup, hb, h]
      · have hb : (k == k₀) = false := by simpa using h
        simp [setKey, List.lookup, hb, h]
    · by_cases h : k = k₀
      · have hb : (k == k₀) = true := beq_iff_eq.mpr h
        have hkk' : ¬k = k' := fun hx => h₀ (h ▸ hx)
        simp [setKey, if_neg h₀, List.lookup, hb, if_neg hkk']
      · have hb : (k == k₀) = false := by simpa using h
        simp [setKey, if_neg h₀, List.lookup, hb, ih]

theorem lookup_dictUpdate_notin {α : Type} (u : List (String × α)) (d : List (String × α))
    (k : String) (h : ∀ kv ∈ u, kv.1 ≠ k) :
    List.lookup k (dictUpdate d u) = List.lookup k d := by
  induction u generalizing d with
  | nil => simp [dictUpdate]
  | cons kv rest ih =>
    have hk : kv.1 ≠ k := h kv (List.mem_cons_self kv rest)
    have : dictUpdate d (kv :: rest) = dictUpdate (setKey d kv.1 kv.2) rest := by
      simp [dictUpdate]
    rw [this, ih _ (fun x hx => h x (List.mem_cons_of_mem kv hx)), lookup_setKey,
      if_neg (Ne.symm hk)]

theorem omap_some_forall₂ {α β : Type} (f : α → Option β) (l : List α) (bs : List β)
    (h : omap f l = some bs) : List.Forall₂ (fun a b => f a = some b) l bs := by
  induction l generalizing bs with
  | nil =>
    simp only [omap] at h
    cases h
    exact List.Forall₂.nil
  | cons a as ih =>
    simp only [omap] at h
    cases hfa : f a with
    | none => rw [hfa] at h; exact absurd h (by simp)
    | some b =>
      rw [hfa] at h
      cases has : omap f as with
      | none => rw [has] at h; exact absurd h (by simp)
      | some bs' =>
        rw [has] at h
        simp only [Option.some.injEq] at h
        cases h
        exact List.Forall₂.cons hfa (ih bs' has)

theorem omap_length {α β : Type} (f : α → Option β) (l : List α) (bs : List β)
    (h : omap f l = some bs) : bs.length = l.length :=
  (omap_some_forall₂ f l bs h).length_eq.symm

theorem forall₂_imp_mem {α β : Type} {Q P : α → β → Prop} :
    ∀ {l : List α} {bs : List β}, List.Forall₂ Q l bs →
      (∀ a ∈ l, ∀ b, Q a b → P a b) → List.Forall₂ P l bs := by
  intro l bs h
  induction h with
  | nil => intro _; exact List.Forall₂.nil
  | cons ha hrest ih =>
    intro hP
    exact List.Forall₂.cons (hP _ (List.mem_cons_self _ _) _ ha)
      (ih (fun x hx => hP x (List.mem_cons_of_mem _ hx)))

theorem forall₂_of_omap_mem {α β : Type} (f : α → Option β) (l : List α) (bs : List β)
    (h : omap f l = some bs) (P : α → β → Prop)
    (hP : ∀ a ∈ l, ∀ b, f a = some b → P a b) : List.Forall₂ P l bs :=
  forall₂_imp_mem (omap_some_forall₂ f l bs h) hP

theorem forall₂_map_self {α β : Type} (l : List α) (g : α → β) (P : α → β → Prop)
    (h : ∀ a ∈ l, P a (g a)) : List.Forall₂ P l (l.map g) := by
  induction l with
  | nil => exact List.Forall₂.nil
  | cons a as ih =>
    exact List.Forall₂.cons (h a (List.mem_cons_self a as))
      (ih (fun x hx => h x (List.mem_cons_of_mem a hx)))

theorem lookup_some_mem {α : Type} (l : List (String × α)) (k : String) (v : α)
    (h : List.lookup k l = some v) : (k, v) ∈ l := by
  induction l with
  | nil => exact absurd h (by simp [List.lookup])
  | cons p rest ih =>
    obtain ⟨k₀, v₀⟩ := p
    by_cases hk : k = k₀
    · subst hk
      have hb : (k == k) = true := beq_iff_eq.mpr rfl
      simp only [List.lookup, hb] at h
      cases h
      exact List.mem_cons_self _ _
    · have hb : (k == k₀) = false := by simpa using hk
      simp only [List.lookup, hb] at h
      exact List.mem_cons_of_mem _ (ih h)

theorem lookup_some_mem_snd {α : Type} (l : List (String × α)) (k : String) (v : α)
    (h : List.lookup k l = some v) : v ∈ l.map Prod.snd := by
  have := lookup_some_mem l k v h
  exact List.mem_map.mpr ⟨(k, v), this, rfl⟩

theorem lookup_isSome_of_mem_keys {α : Type} (l : List (String × α)) (k : String)
    (h : k ∈ l.map Prod.fst) : (List.lookup k l).isSome := by
  induction l with
  | nil => exact absurd h (by simp)
  | cons p rest ih =>
    obtain ⟨k₀, v₀⟩ := p
    by_cases hk : k = k₀
    · subst hk
      have hb : (k == k) = true := beq_iff_eq.mpr rfl
      simp [List.lookup, hb]
    · have hb : (k == k₀) = false := by simpa using hk
      simp only [List.map_cons, List.mem_cons] at h
      rcases h with h | h
      · exact absurd h hk
      · simp only [List.lookup, hb]
        exact ih h

/-- Filtering an association list by a predicate on the key does not change
the lookup of a key satisfying the predicate. -/
theorem lookup_filter_key {α : Type} (l : List (String × α)) (q : String → Bool)
    (k : String) (hq : q k = true) :
    List.lookup k (l.filter (fun kv => q kv.1)) = List.lookup k l := by
  induction l with
  | nil => simp
  | cons p rest ih =>
    obtain ⟨k₀, v₀⟩ := p
    by_cases hk : k = k₀
    · subst hk
      have hb : (k == k) = true := beq_iff_eq.mpr rfl
      simp [List.filter, hq, List.lookup, hb]
    · have hb : (k == k₀) = false := by simpa using hk
      by_cases hq₀ : q k₀ = true
      · simp only [List.filter, hq₀, List.lookup, hb]
        exact ih
      · have hq₀' : q k₀ = false := by
          cases hqq : q k₀
          · rfl
          · exact absurd hqq hq₀
        simp only [List.filter, hq₀', List.lookup, hb]
        exact ih

theorem find?_self_of_nodup {α : Type} (l : List (String × α)) (cs : String × α)
    (hmem : cs ∈ l) (hnd : (l.map Prod.fst).Nodup) :
    l.find? (fun p => cs.1 == p.1) = some cs := by
  induction l with
  | nil => exact absurd hmem (List.not_mem_nil cs)
  | cons p rest ih =>
    rcases List.mem_cons.mp hmem with h | h
    · subst h
      simp [List.find?]
    · have hne : cs.1 ≠ p.1 := by
        intro hcontra
        have hp : p.1 ∈ rest.map Prod.fst := by
          exact List.mem_map.mpr ⟨cs, h, hcontra⟩
        exact (List.nodup_cons.mp hnd).1 hp
      have hb : (cs.1 == p.1) = false := by simpa using hne
      simp only [List.find?, hb]
      exact ih h (List.nodup_cons.mp hnd).2

/-- The zipped-pair lookup succeeds for every level name when the row is
well-formed, and yields an element of the row. -/
theorem rowLookup_zip_mem (names vals : List String) (n : String)
    (hlen : vals.length = names.length) (hn : n ∈ names) :
    ∃ v, rowLookup names vals n = some v ∧ v ∈ vals := by
  induction names generalizing vals with
  | nil => exact absurd hn (List.not_mem_nil n)
  | cons m ms ih =>
    cases vals with
    | nil => simp at hlen
    | cons v vs =>
      by_cases hm : n = m
      · subst hm
        have hb : (n == n) = true := beq_iff_eq.mpr rfl
        exact ⟨v, by simp [rowLookup, List.lookup, hb], List.mem_cons_self v vs⟩
      · have hb : (n == m) = false := by simpa using hm
        rcases List.mem_cons.mp hn with h | h
        · exact absurd h hm
        · have hlen' : vs.length = ms.length := by simpa using hlen
          obtain ⟨w, hw, hwmem⟩ := ih vs hlen' h
          refine ⟨w, ?_, List.mem_cons_of_mem v hwmem⟩
          simpa [rowLookup, List.lookup, hb] using hw

/-- `lookup` on the mapped association list `sel` of `locSelect`. -/
theorem lookup_map_sel {α β : Type} (l : List (String × α)) (f : String × α → β)
    (cs : String × α) (hmem : cs ∈ l) (hnd : (l.map Prod.fst).Nodup) :
    List.lookup cs.1 (l.map (fun p => (p.1, f p))) = some (f cs) := by
  induction l with
  | nil => exact absurd hmem (List.not_mem_nil cs)
  | cons p rest ih =>
    rcases List.mem_cons.mp hmem with h | h
    · subst h
      simp [List.lookup]
    · have hne : cs.1 ≠ p.1 := by
        intro hcontra
        have hp : p.1 ∈ rest.map Prod.fst := List.mem_map.mpr ⟨cs, h, hcontra⟩
        exact (List.nodup_cons.mp hnd).1 hp
      have hb : (cs.1 == p.1) = false := by simpa using hne
      simp only [List.map_cons, List.lookup, hb]
      exact ih h (List.nodup_cons.mp hnd).2

theorem contains_iff_mem {α : Type} [BEq α] [LawfulBEq α] (l : List α) (a : α) :
    l.contains a = true ↔ a ∈ l :=
  ⟨List.mem_of_elem_eq_true, List.elem_eq_true_of_mem⟩

theorem lookup_of_mem_nodup {α : Type} (l : List (String × α)) (k : String) (v : α)
    (hnd : (l.map Prod.fst).Nodup) (hmem : (k, v) ∈ l) :
    List.lookup k l = some v := by
  induction l with
  | nil => exact absurd hmem (List.not_mem_nil _)
  | cons p rest ih =>
    rcases List.mem_cons.mp hmem with h | h
    · subst h
      simp [List.lookup]
    · have hne : k ≠ p.1 := by
        intro hcontra
        exact (List.nodup_cons.mp hnd).1
          (List.mem_map.mpr ⟨(k, v), h, hcontra⟩)
      have hb : (k == p.1) = false := by simpa using hne
      obtain ⟨p₁, p₂⟩ := p
      simp only [List.lookup, hb]
      exact ih (List.nodup_cons.mp hnd).2 h

theorem zip_fst_nodup (names vals : List String) (hnd : names.Nodup) :
    ((names.zip vals).map Prod.fst).Nodup := by
  induction names generalizing vals with
  | nil => simp
  | cons n ns ih =>
    cases vals with
    | nil => simp
    | cons v vs =>
      simp only [List.zip_cons_cons, List.map_cons, List.nodup_cons]
      refine ⟨fun hmem => ?_, ih vs (List.nodup_cons.mp hnd).2⟩
      have : n ∈ ns := by
        rcases List.mem_map.mp hmem with ⟨p, hp, hfst⟩
        have := List.of_mem_zip hp
        exact hfst ▸ this.1
      exact (List.nodup_cons.mp hnd).1 this

theorem mem_seriesKeys_filter (s : Series) (q : String → Bool) (v : String) :
    v ∈ seriesKeys (s.filter (fun kv => q kv.1)) ↔ v ∈ seriesKeys s ∧ q v = true := by
  unfold seriesKeys
  constructor
  · intro h
    rcases List.mem_map.mp h with ⟨kv, hkv, hfst⟩
    have := List.mem_filter.mp hkv
    exact ⟨List.mem_map.mpr ⟨kv, this.1, hfst⟩, hfst ▸ this.2⟩
  · intro ⟨hmem, hq⟩
    rcases List.mem_map.mp hmem with ⟨kv, hkv, hfst⟩
    exact List.mem_map.mpr ⟨kv, List.mem_filter.mpr ⟨hkv, hfst ▸ hq⟩, hfst⟩

theorem mem_idx_lvl_values (df : Frame) (c : String) (r : List String × Int)
    (hr : r ∈ df.rows) (v : String) (hv : rowLookup df.names r.1 c = some v) :
    v ∈ idx_lvl_values df c := by
  unfold idx_lvl_values
  rw [List.mem_dedup]
  exact List.mem_filterMap.mpr ⟨r, hr, hv⟩

theorem omap_of_forall_some {α β : Type} (f : α → Option β) (l : List α)
    (h : ∀ a ∈ l, ∃ b, f a = some b) : ∃ bs, omap f l = some bs := by
  induction l with
  | nil => exact ⟨[], rfl⟩
  | cons a as ih =>
    obtain ⟨b, hb⟩ := h a (List.mem_cons_self a as)
    obtain ⟨bs, hbs⟩ := ih (fun x hx => h x (List.mem_cons_of_mem a hx))
    exact ⟨b :: bs, by simp [omap, hb, hbs]⟩

theorem forall₂_mem_left {α β : Type} {R : α → β → Prop} :
    ∀ {l : List α} {m : List β}, List.Forall₂ R l m → ∀ a ∈ l, ∃ b ∈ m, R a b := by
  intro l m h
  induction h with
  | nil => intro a ha; exact absurd ha (List.not_mem_nil a)
  | cons hR hrest ih =>
    intro a ha
    rcases List.mem_cons.mp ha with h' | h'
    · subst h'
      exact ⟨_, List.mem_cons_self _ _, hR⟩
    · obtain ⟨b, hb, hRb⟩ := ih a h'
      exact ⟨b, List.mem_cons_of_mem _ hb, hRb⟩

theorem forall₂_trans {α β γ : Type} {R : α → β → Prop} {S : β → γ → Prop}
    {T : α → γ → Prop} (hT : ∀ a b c, R a b → S b c → T a c) :
    ∀ {l : List α} {m : List β} {n : List γ},
      List.Forall₂ R l m → List.Forall₂ S m n → List.Forall₂ T l n := by
  intro l m n hR
  induction hR generalizing n with
  | nil =>
    intro hS
    cases hS
    exact List.Forall₂.nil
  | cons hab hrest ih =>
    intro hS
    cases hS with
    | cons hbc hrest' =>
      exact List.Forall₂.cons (hT _ _ _ hab hbc) (ih hrest')

theorem forall₂_zip_left {α β γ : Type} {P : α → β → Prop} {Q : α × β → γ → Prop} :
    ∀ {l : List α} {m : List β} {n : List γ},
      List.Forall₂ P l m → List.Forall₂ Q (l.zip m) n →
      List.Forall₂ (fun a c => ∃ b, P a b ∧ Q (a, b) c) l n := by
  intro l m n hP
  induction hP generalizing n with
  | nil =>
    intro hQ
    cases hQ
    exact List.Forall₂.nil
  | cons hab hrest ih =>
    intro hQ
    cases hQ with
    | cons hq hrest' =>
      exact List.Forall₂.cons ⟨_, hab, hq⟩ (ih hrest')

theorem omap_rowLookup_recover (g : String → Option String) :
    ∀ (names : List String) (vals : List String), omap g names = some vals →
      ∀ n ∈ names, rowLookup names vals n = g n := by
  intro names
  induction names with
  | nil => intro vals _ n hn; exact absurd hn (List.not_mem_nil n)
  | cons m ms ih =>
    intro vals h n hn
    simp only [omap] at h
    cases hm : g m with
    | none => rw [hm] at h; exact absurd h (by simp)
    | some b =>
      rw [hm] at h
      cases hms : omap g ms with
      | none => rw [hms] at h; exact absurd h (by simp)
      | some bs =>
        rw [hms] at h
        simp only [Option.some.injEq] at h
        subst h
        by_cases hnm : n = m
        · subst hnm
          have hb : (n == n) = true := beq_iff_eq.mpr rfl
          simp [rowLookup, List.lookup, hb, hm]
        · have hb : (n == m) = false := by simpa using hnm
          rcases List.mem_cons.mp hn with h' | h'
          · exact absurd h' hnm
          · simpa [rowLookup, List.lookup, hb] using ih bs hms n h'

theorem rowLookup_append (names₁ vals₁ names₂ vals₂ : List String) (n : String)
    (hlen : vals₁.length = names₁.length) :
    rowLookup (names₁ ++ names₂) (vals₁ ++ vals₂) n =
      if n ∈ names₁ then rowLookup names₁ vals₁ n else rowLookup names₂ vals₂ n := by
  induction names₁ generalizing vals₁ with
  | nil =>
    cases vals₁ with
    | nil => simp [rowLookup]
    | cons v vs => simp at hlen
  | cons m ms ih =>
    cases vals₁ with
    | nil => simp at hlen
    | cons v vs =>
      by_cases hnm : n = m
      · subst hnm
        have hb : (n == n) = true := beq_iff_eq.mpr rfl
        simp [rowLookup, List.lookup, hb]
      · have hb : (n == m) = false := by simpa using hnm
        have hlen' : vs.length = ms.length := by simpa using hlen
        have hz : rowLookup ((m :: ms) ++ names₂) ((v :: vs) ++ vals₂) n
            = rowLookup (ms ++ names₂) (vs ++ vals₂) n := by
          simp only [rowLookup, List.cons_append, List.zip_cons_cons, List.lookup, hb]
          rfl
        rw [hz, ih vs hlen']
        by_cases hmem : n ∈ ms
        · rw [if_pos hmem, if_pos (List.mem_cons_of_mem m hmem)]
          simp only [rowLookup, List.zip_cons_cons, List.lookup, hb]
          rfl
        · rw [if_neg hmem, if_neg (by simp [List.mem_cons, hnm, hmem])]

theorem pydictLookup_of_mem_nodup (l : List (String × String)) (k v : String)
    (hnd : (l.map Prod.fst).Nodup) (hmem : (k, v) ∈ l) :
    pydictLookup l k = some v := by
  unfold pydictLookup
  refine lookup_of_mem_nodup l.reverse k v ?_ (List.mem_reverse.mpr hmem)
  rw [List.map_reverse]
  exact List.nodup_reverse.mpr hnd

theorem cartProd_mem {α : Type} :
    ∀ (ls : List (List α)) (c : List α),
      c ∈ cartProd ls ↔ List.Forall₂ (fun x xs => x ∈ xs) c ls := by
  intro ls
  induction ls with
  | nil =>
    intro c
    simp only [cartProd, List.mem_singleton]
    constructor
    · intro h; subst h; exact List.Forall₂.nil
    · intro h; cases h; rfl
  | cons xs rest ih =>
    intro c
    simp only [cartProd, List.mem_flatMap, List.mem_map]
    constructor
    · rintro ⟨x, hx, c', hc', rfl⟩
      exact List.Forall₂.cons hx ((ih c').mp hc')
    · intro h
      cases h with
      | cons hx hrest =>
        exact ⟨_, hx, _, (ih _).mpr hrest, rfl⟩

theorem cartProd_length {α : Type} :
    ∀ (ls : List (List α)),
      (cartProd ls).length = (ls.map List.length).prod := by
  intro ls
  induction ls with
  | nil => rfl
  | cons xs rest ih =>
    simp only [cartProd, List.length_flatMap, List.map_cons, List.prod_cons]
    have h1 : List.map (List.length ∘ fun x => (cartProd rest).map (x :: ·)) xs
        = List.map (fun _ => (cartProd rest).length) xs :=
      List.map_congr_left (fun x _ => by simp)
    rw [h1, List.map_const', List.sum_replicate, smul_eq_mul, ih]

theorem zip_flatMap_blocks {α γ δ : Type} (f : α → List γ) (g : α → List δ)
    (hlen : ∀ x, (f x).length = (g x).length) :
    ∀ (xs : List α),
      (xs.flatMap f).zip (xs.flatMap g) = xs.flatMap (fun x => (f x).zip (g x)) := by
  intro xs
  induction xs with
  | nil => rfl
  | cons x rest ih =>
    simp only [List.flatMap_cons]
    rw [List.zip_append (hlen x), ih]

/-- The Cartesian products over the keys and over the labels, zipped (as in
`IAMconv._varwidx`), pair each key combination with its label combination. -/
theorem cartProd_zip_unzip {α β : Type} :
    ∀ (ls : List (List (α × β))),
      (cartProd (ls.map (fun l => l.map Prod.fst))).zip
        (cartProd (ls.map (fun l => l.map Prod.snd)))
      = (cartProd ls).map (fun c => (c.map Prod.fst, c.map Prod.snd)) := by
  intro ls
  induction ls with
  | nil => rfl
  | cons xs rest ih =>
    simp only [cartProd, List.map_cons]
    rw [List.flatMap_map, List.flatMap_map]
    have hlen : ∀ x : α × β,
        ((cartProd (rest.map (fun l => l.map Prod.fst))).map (x.1 :: ·)).length
        = ((cartProd (rest.map (fun l => l.map Prod.snd))).map (x.2 :: ·)).length := by
      intro x
      simp only [List.length_map, cartProd_length, List.map_map]
      have : (List.length ∘ fun l : List (α × β) => l.map Prod.fst)
          = (List.length ∘ fun l : List (α × β) => l.map Prod.snd) := by
        funext l; simp
      rw [this]
    rw [zip_flatMap_blocks _ _ hlen, List.map_flatMap]
    have hfun : (fun x : α × β =>
        ((cartProd (rest.map (fun l => l.map Prod.fst))).map (x.1 :: ·)).zip
          ((cartProd (rest.map (fun l => l.map Prod.snd))).map (x.2 :: ·)))
        = (fun x : α × β => ((cartProd rest).map (x :: ·)).map
            (fun c => (c.map Prod.fst, c.map Prod.snd))) := by
      funext x
      rw [List.zip_map, ih, List.map_map, List.map_map]
      exact List.map_congr_left (fun c _ => by simp)
    rw [hfun]

theorem splitSepAux_append (sep : Char) :
    ∀ (k : List Char) (rest acc : List Char), (∀ c ∈ k, c ≠ sep) →
      splitSepAux sep (k ++ rest) acc = splitSepAux sep rest (k.reverse ++ acc) := by
  intro k
  induction k with
  | nil => intro rest acc _; simp
  | cons c cs ih =>
    intro rest acc h
    have hc : c ≠ sep := h c (List.mem_cons_self c cs)
    simp only [List.cons_append, splitSepAux, if_neg hc]
    show splitSepAux sep (cs ++ rest) (c :: acc) = _
    rw [ih rest (c :: acc) (fun x hx => h x (List.mem_cons_of_mem c hx))]
    simp

theorem splitSep_join (sep : Char) :
    ∀ (ks : List (List Char)), ks ≠ [] → (∀ k ∈ ks, ∀ c ∈ k, c ≠ sep) →
      splitSep sep (joinSep sep ks) = ks := by
  intro ks
  induction ks with
  | nil => intro h _; exact absurd rfl h
  | cons k rest ih =>
    intro _ hsep
    cases rest with
    | nil =>
      show splitSepAux sep (joinSep sep [k]) [] = [k]
      have : joinSep sep [k] = k ++ [] := by simp [joinSep]
      rw [this, splitSepAux_append sep k [] []
        (fun c hc => hsep k (List.mem_cons_self k []) c hc)]
      simp [splitSepAux]
    | cons k' rest' =>
      show splitSepAux sep (joinSep sep (k :: k' :: rest')) [] = k :: k' :: rest'
      have hj : joinSep sep (k :: k' :: rest') = k ++ sep :: joinSep sep (k' :: rest') := rfl
      rw [hj, splitSepAux_append sep k _ []
        (fun c hc => hsep k (List.mem_cons_self k _) c hc)]
      simp only [splitSepAux, if_pos rfl, if_true, List.append_nil, List.reverse_reverse]
      exact congrArg (k :: ·) (ih (by simp) (fun x hx => hsep x (List.mem_cons_of_mem k hx)))

theorem pySplit_pyJoin (ks : List String) (hne : ks ≠ [])
    (hpipe : ∀ k ∈ ks, ∀ c ∈ k.toList, c ≠ '|') :
    pySplit '|' (pyJoin '|' ks) = ks := by
  unfold pySplit pyJoin
  have hdata : (String.mk (joinSep '|' (ks.map String.toList))).toList
      = joinSep '|' (ks.map String.toList) := rfl
  rw [hdata, splitSep_join '|' (ks.map String.toList) (by simpa using hne)
    (by intro k hk c hc
        rcases List.mem_map.mp hk with ⟨s, hs, hks⟩
        subst hks
        exact hpipe s hs c hc)]
  rw [List.map_map]
  have hid : (String.mk ∘ String.toList) = id := funext (fun s => rfl)
  rw [hid, List.map_id]

theorem iamcify_ok_inv (df : Frame) (varCol : List String) (fr : Frame)
    (h : iamcify df varCol = .ok fr) :
    df.rows.length = varCol.length
    ∧ ((df.names ++ ["variable"]).filter (fun n => decide (n ∈ IAMC_IDX))).length
        = IAMC_IDX.length
    ∧ (∀ n ∈ IAMC_IDX, n ∈ df.names ++ ["variable"])
    ∧ ((df.names ++ ["variable"]).filter (fun n => decide (n ∈ IAMC_IDX))).Nodup
    ∧ fr.names = IAMC_IDX ∧ fr.colName = "value"
    ∧ List.Forall₂ (fun (rv : (List String × Int) × String) (r' : List String × Int) =>
        r'.2 = rv.1.2 ∧
        omap (rowLookup (df.names ++ ["variable"]) (rv.1.1 ++ [rv.2])) IAMC_IDX = some r'.1)
      (df.rows.zip varCol) fr.rows := by
  unfold iamcify at h
  by_cases hc : df.rows.length = varCol.length
      ∧ ((df.names ++ ["variable"]).filter (fun n => decide (n ∈ IAMC_IDX))).length
          = IAMC_IDX.length
      ∧ (∀ n ∈ IAMC_IDX, n ∈ df.names ++ ["variable"])
      ∧ ((df.names ++ ["variable"]).filter (fun n => decide (n ∈ IAMC_IDX))).Nodup
  · rw [if_pos hc] at h
    cases hrows : omap (fun rv : (List String × Int) × String =>
        (omap (rowLookup (df.names ++ ["variable"]) (rv.1.1 ++ [rv.2])) IAMC_IDX).map
          (fun i => (i, rv.1.2)))
        (df.rows.zip varCol) with
    | none => rw [hrows] at h; exact absurd h (by simp)
    | some rows' =>
      rw [hrows] at h
      simp only [Except.ok.injEq] at h
      subst h
      refine ⟨hc.1, hc.2.1, hc.2.2.1, hc.2.2.2, rfl, rfl, ?_⟩
      refine (omap_some_forall₂ _ _ _ hrows).imp ?_
      intro rv r' hfr
      cases hinner : omap (rowLookup (df.names ++ ["variable"]) (rv.1.1 ++ [rv.2]))
          IAMC_IDX with
      | none => rw [hinner] at hfr; exact absurd hfr (by simp)
      | some i =>
        rw [hinner] at hfr
        simp only [Option.map_some', Option.some.injEq] at hfr
        subst hfr
        exact ⟨rfl, rfl⟩
  · rw [if_neg hc] at h
    exact absurd h (by simp)

theorem resolve_names (indices : Indices) (df : Frame) :
    (resolve_idxcol_defaults indices df).names
      = df.names ++ (indices.filter (fun cd =>
          decide (cd.1 ∈ IAMC_IDX) && decide (cd.1 ∉ df.names))).map Prod.fst := rfl

theorem resolve_defaults_iamc (indices : Indices) (df : Frame) (n : String)
    (h : n ∈ ((indices.filter (fun cd =>
      decide (cd.1 ∈ IAMC_IDX) && decide (cd.1 ∉ df.names))).map Prod.fst)) :
    n ∈ IAMC_IDX := by
  rcases List.mem_map.mp h with ⟨cd, hcd, hfst⟩
  have := List.mem_filter.mp hcd
  have h2 := this.2
  simp only [Bool.and_eq_true, decide_eq_true_eq] at h2
  exact hfst ▸ h2.1

theorem resolve_wf (indices : Indices) (df : Frame) (h : df.WF) :
    (resolve_idxcol_defaults indices df).WF := by
  intro r hr
  unfold resolve_idxcol_defaults at hr
  simp only [List.mem_map] at hr
  rcases hr with ⟨r₀, hr₀, hrr⟩
  subst hrr
  simp only [resolve_names, List.length_append, List.length_map]
  simp [h r₀ hr₀]

theorem resolve_rows_forall₂ (indices : Indices) (df : Frame) :
    List.Forall₂ (fun (r₀ r : List String × Int) =>
      r.1 = r₀.1 ++ (indices.filter (fun cd =>
        decide (cd.1 ∈ IAMC_IDX) && decide (cd.1 ∉ df.names))).map (fun cd => cd.2.scalarOf)
      ∧ r.2 = r₀.2)
      df.rows (resolve_idxcol_defaults indices df).rows := by
  unfold resolve_idxcol_defaults
  simp only
  exact forall₂_map_self df.rows _ _ (fun r₀ _ => ⟨rfl, rfl⟩)

theorem index_levels_resolve (indices : Indices) (df : Frame) :
    index_levels indices (resolve_idxcol_defaults indices df).names
      = index_levels indices df.names := by
  unfold index_levels
  refine List.filter_congr ?_
  intro cd _
  by_cases hI : cd.1 ∈ IAMC_IDX
  · simp [hI]
  · have hmem : (cd.1 ∈ (resolve_idxcol_defaults indices df).names) ↔ cd.1 ∈ df.names := by
      rw [resolve_names, List.mem_append]
      constructor
      · rintro (h | h)
        · exact h
        · exact absurd (resolve_defaults_iamc indices df cd.1 h) hI
      · exact Or.inl
    by_cases hm : cd.1 ∈ df.names
    · simp [hI, hm, hmem.mpr hm]
    · have hnot : cd.1 ∉ (resolve_idxcol_defaults indices df).names :=
        fun hc => hm (hmem.mp hc)
      simp [hI, hm, hnot]

theorem seriesOfLevels_cols :
    ∀ (l : Indices) (lvls : List (String × Series)),
      seriesOfLevels l = .ok lvls →
      lvls.map Prod.fst = l.map Prod.fst
        ∧ List.Forall₂ (fun (cd : String × IdxDef) (cs : String × Series) =>
            cd.1 = cs.1 ∧ cd.2 = .levels cs.2) l lvls := by
  intro l
  induction l with
  | nil =>
    intro lvls h
    simp only [seriesOfLevels, Except.ok.injEq] at h
    subst h
    exact ⟨rfl, List.Forall₂.nil⟩
  | cons cd rest ih =>
    intro lvls h
    obtain ⟨c, d⟩ := cd
    cases d with
    | value v =>
      have hval : seriesOfLevels ((c, IdxDef.value v) :: rest)
          = .error "AttributeError: scalar level definition" := rfl
      rw [hval] at h
      exact absurd h (by simp)
    | levels s =>
      have hlv : seriesOfLevels ((c, IdxDef.levels s) :: rest)
          = (seriesOfLevels rest).map (fun l => (c, s) :: l) := rfl
      rw [hlv] at h
      cases hrest : seriesOfLevels rest with
      | error e => rw [hrest] at h; exact absurd h (by simp [Except.map])
      | ok lvls' =>
        rw [hrest] at h
        simp only [Except.map, Except.ok.injEq] at h
        subst h
        obtain ⟨hmap, hfa⟩ := ih lvls' hrest
        exact ⟨by simp [hmap], List.Forall₂.cons ⟨rfl, rfl⟩ hfa⟩

theorem rowsEquiv_of_forall₂ (ns₁ ns₂ : List String) :
    ∀ {l₁ l₂ : List (List String × Int)},
      List.Forall₂ (fun r s => r.2 = s.2 ∧
        ∀ n ∈ ns₁, rowLookup ns₁ r.1 n = rowLookup ns₂ s.1 n) l₁ l₂ →
      rowsEquiv ns₁ ns₂ l₁ l₂ = true := by
  intro l₁ l₂ h
  induction h with
  | nil => rfl
  | cons hr hrest ih =>
    simp only [rowsEquiv, Bool.and_eq_true]
    refine ⟨⟨beq_iff_eq.mpr hr.1, ?_⟩, ih⟩
    rw [rowAgrees, List.all_eq_true]
    intro n hn
    exact beq_iff_eq.mpr (hr.2 n hn)

/-! ## Claim theorems -/

/-- C10: `is_fmtstr` decides template-ness by brace counting alone: a string
is a template iff its counts of `{` and `}` agree and are nonzero; the braces
need not form a well-formed placeholder (`"a}b{c"` counts as a template)
while unbalanced braces (`"a{b"`) make a literal. -/
theorem is_fmtstr_brace_counting :
    (∀ s : String, is_fmtstr s = true ↔
      (countChar '{' s = countChar '}' s ∧ countChar '{' s ≠ 0))
    ∧ is_fmtstr "a\x7db\x7bc" = true ∧ is_fmtstr "a\x7bb" = false := by
  refine ⟨fun s => ?_, by decide, by decide⟩
  unfold is_fmtstr
  constructor
  · intro h
    simp only [Bool.and_eq_true, bne_iff_ne, ne_eq, beq_iff_eq] at h
    exact ⟨h.2, h.1.1⟩
  · intro h
    simp only [Bool.and_eq_true, bne_iff_ne, ne_eq, beq_iff_eq]
    refine ⟨⟨h.2, ?_⟩, h.1⟩
    rw [← h.1]; exact h.2

/-- C7: the single-column-aggregation assertion of `agg_vals_all` passes
exactly when the `agg` mapping has one key; with any other arity it fails
with the assertion message, and the conversion of such an entry fails with
the same assertion (provided the entry's level resolution itself succeeds,
which happens first in `composeEntry`). -/
theorem agg_vals_all_single_column :
    (∀ agg : List (String × List AggRule),
      ((∃ r, agg_vals_all agg = .ok r) ↔ agg.length = 1)
        ∧ (agg.length ≠ 1 →
            agg_vals_all agg = .error "only support aggregating one column"))
    ∧ (∀ (indices : Indices) (entry : IndexEntry) (df0 : Frame) (l : List (String × Series)),
        seriesOfLevels (index_levels indices (resolve_idxcol_defaults indices df0).names)
            = .ok l →
        2 ≤ entry.agg.length →
        composeEntry indices entry df0 = .error "only support aggregating one column") := by
  constructor
  · intro agg
    match agg with
    | [] => simp [agg_vals_all]
    | [(col, conf)] => simp [agg_vals_all]
    | (c₁, r₁) :: (c₂, r₂) :: rest => simp [agg_vals_all]
  · intro indices entry df0 l hlvl hlen
    have hne : entry.agg.isEmpty = false := by
      cases hagg : entry.agg with
      | nil => rw [hagg] at hlen; simp at hlen
      | cons a t => simp [List.isEmpty]
    have herr : agg_vals_all entry.agg = .error "only support aggregating one column" := by
      match hagg : entry.agg with
      | [] => rw [hagg] at hlen; simp at hlen
      | [(col, conf)] => rw [hagg] at hlen; simp at hlen
      | (c₁, r₁) :: (c₂, r₂) :: rest => simp [agg_vals_all]
    simp only [composeEntry, hlvl, hne, herr, Bool.false_eq_true, if_false]

/-- C8: for a resource whose source has an unsupported file extension,
`converters.to_df` raises `ValueError` when `noexcept` is false and returns
an empty dataframe when `noexcept` is true. -/
theorem to_df_unsupported_source (read : String → Except String Frame) (res : Resource)
    (h : pyLower (stripDots (pySuffix res.path)) ∉ pd_readers) :
    converters_to_df read res false = .error ("unsupported source: " ++ res.path)
      ∧ converters_to_df read res true = .ok emptyFrame := by
  have hsrc : source_type res.path = .error ("unsupported source: " ++ res.path) := by
    simp [source_type, h]
  constructor <;> (unfold converters_to_df; rw [hsrc]; rfl)

/-- Witness for C8 at the unsupported source `data.txt`. -/
theorem to_df_unsupported_source_witness :
    (pyLower (stripDots (pySuffix "data.txt")) ∉ pd_readers)
      ∧ (converters_to_df (fun _ => .ok emptyFrame) ⟨"data.txt"⟩ false
            = .error ("unsupported source: " ++ "data.txt")
          ∧ converters_to_df (fun _ => .ok emptyFrame) ⟨"data.txt"⟩ true = .ok emptyFrame) :=
  ⟨by decide, to_df_unsupported_source (fun _ => .ok emptyFrame) ⟨"data.txt"⟩ (by decide)⟩

theorem RegistrySchemaOk_mem (colOk : ColSchema → Bool) (conf : RegState)
    (hok : RegistrySchemaOk colOk conf = true) :
    ∀ kv ∈ conf, kv.1 = "idxcols" ∨ kv.1 = "cols" := by
  intro kv hkv
  have := (List.all_eq_true.mp hok) kv hkv
  simp only [Bool.and_eq_true, Bool.or_eq_true, decide_eq_true_eq] at this
  exact this.1

/-- Restoring the saved overlay entries makes `stateGetD` agree with the
pre-activation state (note that an entry absent before the scope is restored
as the empty list, which `registry.get` cannot distinguish from absence —
both fall back to the base registry). -/
theorem stateGetD_restore (σ σ₁ : RegState) (col_t : String)
    (hother : col_t ≠ "idxcols" → col_t ≠ "cols" →
      List.lookup col_t σ₁ = List.lookup col_t σ) :
    stateGetD (dictUpdate σ₁
      [("idxcols", stateGetD σ "idxcols"), ("cols", stateGetD σ "cols")]) col_t
      = stateGetD σ col_t := by
  have expand : dictUpdate σ₁
      [("idxcols", stateGetD σ "idxcols"), ("cols", stateGetD σ "cols")]
      = setKey (setKey σ₁ "idxcols" (stateGetD σ "idxcols")) "cols" (stateGetD σ "cols") := by
    simp [dictUpdate]
  rw [expand]
  by_cases hc : col_t = "cols"
  · subst hc; simp [stateGetD, lookup_setKey]
  · by_cases hi : col_t = "idxcols"
    · subst hi; simp [stateGetD, lookup_setKey, hc]
    · simp only [stateGetD, lookup_setKey, if_neg hc, if_neg hi]
      rw [hother hi hc]

/-- Witness for C7: a two-column `agg` mapping makes the conversion fail with
the single-column assertion. -/
theorem agg_vals_all_single_column_witness :
    (seriesOfLevels (index_levels ([] : Indices)
        (resolve_idxcol_defaults [] emptyFrame).names) = .ok [])
    ∧ 2 ≤ ([("a", ([] : List AggRule)), ("b", [])] : List (String × List AggRule)).length
    ∧ composeEntry []
        { path := "f.csv", idxcols := [], iamc := "x", agg := [("a", []), ("b", [])] }
        emptyFrame
      = .error "only support aggregating one column" :=
  ⟨rfl, by decide,
    agg_vals_all_single_column.2 []
      { path := "f.csv", idxcols := [], iamc := "x", agg := [("a", []), ("b", [])] }
      emptyFrame [] rfl (by decide)⟩

theorem checkKeys_ok (r : List (String × JVal))
    (h : ∀ kv ∈ r, kv.1 ∈ pkgindexKeys ∧ keyTypeOk kv.1 kv.2 = true) :
    checkKeys r = .ok () := by
  induction r with
  | nil => rfl
  | cons kv rest ih =>
    have hh := h kv (List.mem_cons_self kv rest)
    simp only [checkKeys, if_pos hh.1, hh.2, if_true]
    exact ih (fun x hx => h x (List.mem_cons_of_mem kv hx))

theorem checkKeys_err (r : List (String × JVal))
    (hty : ∀ kv ∈ r, kv.1 ∈ pkgindexKeys → keyTypeOk kv.1 kv.2 = true)
    (hbad : ∃ kv ∈ r, kv.1 ∉ pkgindexKeys) :
    ∃ k, checkKeys r = .error k ∧ k ∉ pkgindexKeys := by
  induction r with
  | nil => rcases hbad with ⟨kv, hkv, _⟩; exact absurd hkv (List.not_mem_nil kv)
  | cons kv rest ih =>
    by_cases hk : kv.1 ∈ pkgindexKeys
    · have hty₀ := hty kv (List.mem_cons_self kv rest) hk
      have hbad' : ∃ x ∈ rest, x.1 ∉ pkgindexKeys := by
        rcases hbad with ⟨x, hx, hxbad⟩
        rcases List.mem_cons.mp hx with h | h
        · exact absurd (h ▸ hk) hxbad
        · exact ⟨x, h, hxbad⟩
      obtain ⟨k, hrec, hknot⟩ :=
        ih (fun x hx => hty x (List.mem_cons_of_mem kv hx)) hbad'
      refine ⟨k, ?_, hknot⟩
      obtain ⟨k₀, v₀⟩ := kv
      simp only [checkKeys, if_pos hk, hty₀, if_true]
      exact hrec
    · obtain ⟨k₀, v₀⟩ := kv
      exact ⟨k₀, by simp only [checkKeys, if_neg hk], hk⟩

theorem validateRecord_ok (r : List (String × JVal))
    (h : ∀ kv ∈ r, kv.1 ∈ pkgindexKeys ∧ keyTypeOk kv.1 kv.2 = true)
    (hpath : "path" ∈ r.map Prod.fst) :
    validateRecord r = .ok () := by
  have hc : (r.map Prod.fst).contains "path" = true := List.elem_eq_true_of_mem hpath
  simp only [validateRecord, checkKeys_ok r h, hc, if_true]

/-- C6: index-file validation is strict.  Provided every whitelisted key is
well-typed and the one mandatory key `"path"` is present in each record: a
record carrying any key outside the fixed whitelist makes
`pkgindex._validate` raise a `MatchError` whose payload is an offending
(non-whitelist) key name, while records missing any subset of the optional
keys validate successfully, returning the index unchanged. -/
theorem pkgindex_validate_strict :
    (∀ idx : List (List (String × JVal)),
      (∀ r ∈ idx, ∀ kv ∈ r, kv.1 ∈ pkgindexKeys → keyTypeOk kv.1 kv.2 = true) →
      (∀ r ∈ idx, "path" ∈ r.map Prod.fst) →
      (∃ r ∈ idx, ∃ kv ∈ r, kv.1 ∉ pkgindexKeys) →
      ∃ k, pkgindex_validate idx = .error k ∧ k ∉ pkgindexKeys)
    ∧ (∀ idx : List (List (String × JVal)),
      (∀ r ∈ idx, ∀ kv ∈ r, kv.1 ∈ pkgindexKeys ∧ keyTypeOk kv.1 kv.2 = true) →
      (∀ r ∈ idx, "path" ∈ r.map Prod.fst) →
      pkgindex_validate idx = .ok idx) := by
  have okPart : ∀ idx : List (List (String × JVal)),
      (∀ r ∈ idx, ∀ kv ∈ r, kv.1 ∈ pkgindexKeys ∧ keyTypeOk kv.1 kv.2 = true) →
      (∀ r ∈ idx, "path" ∈ r.map Prod.fst) →
      pkgindex_validate idx = .ok idx := by
    intro idx h hpath
    induction idx with
    | nil => rfl
    | cons r rest ih =>
      have hr := validateRecord_ok r (h r (List.mem_cons_self r rest))
        (hpath r (List.mem_cons_self r rest))
      simp only [pkgindex_validate, hr,
        ih (fun x hx => h x (List.mem_cons_of_mem r hx))
           (fun x hx => hpath x (List.mem_cons_of_mem r hx))]
  refine ⟨?_, okPart⟩
  intro idx hty hpath hbad
  induction idx with
  | nil => rcases hbad with ⟨r, hr, _⟩; exact absurd hr (List.not_mem_nil r)
  | cons r rest ih =>
    by_cases hrbad : ∃ kv ∈ r, kv.1 ∉ pkgindexKeys
    · obtain ⟨k, hck, hknot⟩ :=
        checkKeys_err r (hty r (List.mem_cons_self r rest)) hrbad
      refine ⟨k, ?_, hknot⟩
      have hv : validateRecord r = .error k := by
        simp only [validateRecord, hck]
      simp only [pkgindex_validate, hv]
    · push_neg at hrbad
      have hrok : validateRecord r = .ok () := by
        refine validateRecord_ok r (fun kv hkv => ⟨hrbad kv hkv, ?_⟩)
          (hpath r (List.mem_cons_self r rest))
        exact hty r (List.mem_cons_self r rest) kv hkv (hrbad kv hkv)
      have hbad' : ∃ x ∈ rest, ∃ kv ∈ x, kv.1 ∉ pkgindexKeys := by
        rcases hbad with ⟨x, hx, hkv⟩
        rcases List.mem_cons.mp hx with h | h
        · rcases hkv with ⟨kv, hkvm, hkvb⟩
          exact absurd (hrbad kv (h ▸ hkvm)) hkvb
        · exact ⟨x, h, hkv⟩
      obtain ⟨k, hrec, hknot⟩ :=
        ih (fun x hx => hty x (List.mem_cons_of_mem r hx))
           (fun x hx => hpath x (List.mem_cons_of_mem r hx)) hbad'
      refine ⟨k, ?_, hknot⟩
      simp only [pkgindex_validate, hrok, hrec]

/-- Witness for C6: the unknown key `"bogus"` is rejected and surfaced, and a
record with only the mandatory `"path"` validates. -/
theorem pkgindex_validate_strict_witness :
    (∃ k, pkgindex_validate [[("path", .str "a.csv"), ("bogus", .str "x")]]
        = .error k ∧ k ∉ pkgindexKeys)
    ∧ pkgindex_validate [[("path", JVal.str "a.csv")]]
        = .ok [[("path", JVal.str "a.csv")]] := by
  constructor
  · refine pkgindex_validate_strict.1 _ ?_ ?_ ?_
    · intro r hr kv hkv
      fin_cases hr <;> fin_cases hkv <;>
        first
        | (intro _; rfl)
        | (intro hwl; exact absurd hwl (by decide))
    · intro r hr
      fin_cases hr <;> simp
    · exact ⟨[("path", .str "a.csv"), ("bogus", .str "x")], by simp,
        ("bogus", .str "x"), by simp, by decide⟩
  · refine pkgindex_validate_strict.2 _ ?_ ?_
    · intro r hr kv hkv
      fin_cases hr <;> fin_cases hkv <;> exact ⟨by decide, by rfl⟩
    · intro r hr
      fin_cases hr <;> simp

/-- C4: whatever the custom-registry config and however the scope exits
(normal exit, failed validation, or an exception propagating through the
body), `registry.get` returns exactly its pre-activation values once the
scope has ended — for every column name and column type. -/
theorem config_ctx_registry_isolation
    (colOk : ColSchema → Bool) (base : String → String → ColSchema)
    (σ conf : RegState) (exit : BodyExit) (col col_t : String) :
    registry_get base (config_ctx colOk σ conf exit) col col_t
      = registry_get base σ col col_t := by
  have final : stateGetD (config_ctx colOk σ conf exit) col_t = stateGetD σ col_t := by
    unfold config_ctx
    have stepOk : RegistrySchemaOk colOk conf = true →
        stateGetD (dictUpdate (dictUpdate σ conf)
          [("idxcols", stateGetD σ "idxcols"), ("cols", stateGetD σ "cols")]) col_t
        = stateGetD σ col_t := by
      intro hok
      refine stateGetD_restore σ _ col_t (fun hi hc => ?_)
      refine lookup_dictUpdate_notin conf σ _ (fun kv hkv hcontra => ?_)
      rcases RegistrySchemaOk_mem colOk conf hok kv hkv with h | h <;> subst hcontra
      · exact hi h
      · exact hc h
    have stepKo :
        stateGetD (dictUpdate σ
          [("idxcols", stateGetD σ "idxcols"), ("cols", stateGetD σ "cols")]) col_t
        = stateGetD σ col_t :=
      stateGetD_restore σ σ col_t (fun _ _ => rfl)
    cases exit <;> by_cases hok : RegistrySchemaOk colOk conf = true <;>
      simp only [hok, if_true, if_false, Bool.false_eq_true] <;>
      first
      | exact stepOk hok
      | exact stepKo
  simp only [registry_get, final]

/-- C9: every fragment finalised by `iamcify` — aggregated fragments and the
residual fragment both go through it — is indexed exactly by the ordered
tuple `IAMC_IDX = (model, scenario, region, variable, unit, year)`, with the
data column renamed to `value`; every user-defined index level is removed,
and each output row carries, for each of the six names, exactly the value the
input row (extended with its `variable` column) held under that name. -/
theorem iamcify_canonical_index (df : Frame) (varCol : List String) (fr : Frame)
    (h : iamcify df varCol = .ok fr) :
    fr.names = IAMC_IDX ∧ fr.colName = "value"
      ∧ (∀ n ∈ fr.names, n ∈ IAMC_IDX)
      ∧ List.Forall₂ (fun (rv : (List String × Int) × String) (r' : List String × Int) =>
          r'.2 = rv.1.2 ∧
          omap (rowLookup (df.names ++ ["variable"]) (rv.1.1 ++ [rv.2])) IAMC_IDX
            = some r'.1)
        (df.rows.zip varCol) fr.rows := by
  unfold iamcify at h
  by_cases hc : df.rows.length = varCol.length
      ∧ ((df.names ++ ["variable"]).filter (fun n => decide (n ∈ IAMC_IDX))).length
          = IAMC_IDX.length
      ∧ (∀ n ∈ IAMC_IDX, n ∈ df.names ++ ["variable"])
      ∧ ((df.names ++ ["variable"]).filter (fun n => decide (n ∈ IAMC_IDX))).Nodup
  · rw [if_pos hc] at h
    cases hrows : omap (fun rv : (List String × Int) × String =>
        (omap (rowLookup (df.names ++ ["variable"]) (rv.1.1 ++ [rv.2])) IAMC_IDX).map
          (fun i => (i, rv.1.2)))
        (df.rows.zip varCol) with
    | none => rw [hrows] at h; exact absurd h (by simp)
    | some rows' =>
      rw [hrows] at h
      simp only [Except.ok.injEq] at h
      subst h
      refine ⟨rfl, rfl, by simp, ?_⟩
      refine (omap_some_forall₂ _ _ _ hrows).imp ?_
      intro rv r' hfr
      cases hinner : omap (rowLookup (df.names ++ ["variable"]) (rv.1.1 ++ [rv.2]))
          IAMC_IDX with
      | none => rw [hinner] at hfr; exact absurd hfr (by simp)
      | some i =>
        rw [hinner] at hfr
        simp only [Option.map_some', Option.some.injEq] at hfr
        subst hfr
        exact ⟨rfl, rfl⟩
  · rw [if_neg hc] at h
    exact absurd h (by simp)

/-- Witness for C9 at a concrete table with one user level. -/
theorem iamcify_canonical_index_witness :
    (iamcify
        { names := ["model", "scenario", "region", "unit", "year", "technology"]
          colName := "capacity"
          rows := [(["m", "s", "uk", "mw", "2020", "wind"], 5)] }
        ["Capacity|Wind"]
      = .ok { names := IAMC_IDX, colName := "value"
              rows := [(["m", "s", "uk", "Capacity|Wind", "mw", "2020"], 5)] })
    ∧ ({ names := IAMC_IDX, colName := "value"
         rows := [(["m", "s", "uk", "Capacity|Wind", "mw", "2020"], 5)] : Frame }).names
        = IAMC_IDX := by
  have happ := iamcify_canonical_index
    { names := ["model", "scenario", "region", "unit", "year", "technology"]
      colName := "capacity"
      rows := [(["m", "s", "uk", "mw", "2020", "wind"], 5)] }
    ["Capacity|Wind"]
    { names := IAMC_IDX, colName := "value"
      rows := [(["m", "s", "uk", "Capacity|Wind", "mw", "2020"], 5)] }
    (by rfl)
  exact ⟨by rfl, happ.1⟩

/-- C5: variable-name matching and emission are case-aware as claimed.
Decompose direction: the row filter of `_varwidx` gives the same verdict to
any two variable strings that agree up to case (matching is case-insensitive,
e.g. `"Capacity|Electricity|Wind"` and `"capacity|electricity|wind"` cannot
be told apart).  Compose direction: for every row kept by the `.loc`
selection of `IAMconv.to_df`, the emitted variable is the template formatted
with the labels that the configured series assign to the row's raw level
values — so its casing is the configured one, never the input row's. -/
theorem variable_matching_case_insensitive :
    (∀ (values : List (String × String)) (s₁ s₂ : String),
      pyLower s₁ = pyLower s₂ →
      varwidxMatches values s₁ = varwidxMatches values s₂)
    ∧ (∀ (tmpl : String) (df : Frame) (lvls : List (String × Series)) (vs : List String),
        df.WF →
        (∀ cs ∈ lvls, cs.1 ∈ df.names) →
        (lvls.map Prod.fst).Nodup →
        iamcVariable tmpl
          (locSelect df (lvls.map (fun cs => (cs.1, seriesKeys cs.2)))) lvls = .ok vs →
        List.Forall₂ (fun (r : List String × Int) (v : String) =>
          ∃ args : List (String × String),
            pyformat tmpl args = some v ∧
            List.Forall₂ (fun (cs : String × Series) (p : String × String) =>
              p.1 = cs.1 ∧ ∃ k, rowLookup df.names r.1 cs.1 = some k
                ∧ cs.2.lookup k = some p.2 ∧ p.2 ∈ cs.2.map Prod.snd)
              lvls args)
          (locSelect df (lvls.map (fun cs => (cs.1, seriesKeys cs.2)))).rows vs) := by
  constructor
  · intro values s₁ s₂ h
    unfold varwidxMatches
    rw [h]
  · intro tmpl df lvls vs hwf hcols hnd hv
    unfold iamcVariable at hv
    set sel := lvls.map (fun cs => (cs.1, seriesKeys cs.2)) with hsel
    cases homap : omap (fun r : List String × Int =>
        pyformat tmpl (lvls.map (fun cs =>
          (cs.1, ((rowLookup (locSelect df sel).names r.1 cs.1).bind
            (fun k => cs.2.lookup k)).getD "nan"))))
        (locSelect df sel).rows with
    | none =>
      rw [homap] at hv
      exact absurd hv (by simp [liftO])
    | some vs' =>
      rw [homap] at hv
      simp only [liftO, Except.ok.injEq] at hv
      subst hv
      refine forall₂_of_omap_mem _ _ _ homap _ ?_
      intro r hr v hfmt
      have hnames : (locSelect df sel).names = df.names := rfl
      have hrdf : r ∈ df.rows ∧ _ := List.mem_filter.mp hr
      have hlen : r.1.length = df.names.length := hwf r hrdf.1
      refine ⟨lvls.map (fun cs =>
        (cs.1, ((rowLookup df.names r.1 cs.1).bind (fun k => cs.2.lookup k)).getD "nan")),
        ?_, ?_⟩
      · rw [← hfmt, hnames]
      · refine forall₂_map_self lvls _ _ ?_
        intro cs hcs
        obtain ⟨k, hk, _⟩ := rowLookup_zip_mem df.names r.1 cs.1 hlen (hcols cs hcs)
        have hselk : List.lookup cs.1 sel = some (seriesKeys cs.2) := by
          rw [hsel]
          exact lookup_map_sel lvls (fun cs => seriesKeys cs.2) cs hcs hnd
        have hkmem : k ∈ seriesKeys cs.2 := by
          have hpair : (cs.1, k) ∈ df.names.zip r.1 := lookup_some_mem _ _ _ hk
          have hall := hrdf.2
          simp only [List.all_eq_true] at hall
          have := hall (cs.1, k) hpair
          rw [hselk] at this
          simpa using this
        have hlab : (List.lookup k cs.2).isSome :=
          lookup_isSome_of_mem_keys cs.2 k hkmem
        cases hlk : List.lookup k cs.2 with
        | none => rw [hlk] at hlab; simp at hlab
        | some label =>
          have harg : ((rowLookup df.names r.1 cs.1).bind
              (fun k => List.lookup k cs.2)).getD "nan" = label := by
            rw [hk]
            simp [hlk]
          refine ⟨rfl, k, hk, ?_, ?_⟩
          · show List.lookup k cs.2 = some (((rowLookup df.names r.1 cs.1).bind
              (fun k => List.lookup k cs.2)).getD "nan")
            rw [harg]
            exact hlk
          · show (((rowLookup df.names r.1 cs.1).bind
              (fun k => List.lookup k cs.2)).getD "nan") ∈ cs.2.map Prod.snd
            rw [harg]
            exact lookup_some_mem_snd cs.2 k label hlk

/-- Witness for C5: the two casings of the wind-capacity variable match the
same reverse dictionary entry, and the composed variable for a concrete row
carries the configured label casing. -/
theorem variable_matching_case_insensitive_witness :
    (pyLower "Capacity|Electricity|Wind" = pyLower "capacity|electricity|wind"
      ∧ varwidxMatches [("capacity|electricity|wind", "wind")] "Capacity|Electricity|Wind"
          = varwidxMatches [("capacity|electricity|wind", "wind")] "capacity|electricity|wind")
    ∧ (iamcVariable "Capacity|Electricity|{technology}"
        (locSelect
          { names := ["region", "technology"], colName := "capacity"
            rows := [(["uk", "wind"], 10)] }
          ([("technology", [("wind", "Wind")])].map
            (fun cs : String × Series => (cs.1, seriesKeys cs.2))))
        [("technology", [("wind", "Wind")])]
        = .ok ["Capacity|Electricity|Wind"]
      ∧ List.Forall₂ (fun (r : List String × Int) (v : String) =>
          ∃ args : List (String × String),
            pyformat "Capacity|Electricity|{technology}" args = some v ∧
            List.Forall₂ (fun (cs : String × Series) (p : String × String) =>
              p.1 = cs.1 ∧ ∃ k, rowLookup ["region", "technology"] r.1 cs.1 = some k
                ∧ cs.2.lookup k = some p.2 ∧ p.2 ∈ cs.2.map Prod.snd)
              [("technology", [("wind", "Wind")])] args)
          (locSelect
            { names := ["region", "technology"], colName := "capacity"
              rows := [(["uk", "wind"], 10)] }
            ([("technology", [("wind", "Wind")])].map
              (fun cs : String × Series => (cs.1, seriesKeys cs.2)))).rows
          ["Capacity|Electricity|Wind"]) := by
  refine ⟨⟨by rfl, variable_matching_case_insensitive.1 _ _ _ (by rfl)⟩, by rfl, ?_⟩
  exact variable_matching_case_insensitive.2 "Capacity|Electricity|{technology}"
    { names := ["region", "technology"], colName := "capacity"
      rows := [(["uk", "wind"], 10)] }
    [("technology", [("wind", "Wind")])]
    ["Capacity|Electricity|Wind"]
    (by decide) (by decide) (by decide) (by rfl)

theorem lookup_none_iff {α : Type} (l : List (String × α)) (k : String) :
    List.lookup k l = none ↔ k ∉ l.map Prod.fst := by
  induction l with
  | nil => simp
  | cons p rest ih =>
    obtain ⟨k₀, v₀⟩ := p
    by_cases hk : k = k₀
    · subst hk
      have hb : (k == k) = true := beq_iff_eq.mpr rfl
      simp [List.lookup, hb]
    · have hb : (k == k₀) = false := by simpa using hk
      simp only [List.lookup, hb, List.map_cons, List.mem_cons]
      rw [ih]
      constructor
      · intro h hmem
        rcases hmem with h' | h'
        · exact hk h'
        · exact h h'
      · intro h hmem
        exact h (Or.inr hmem)

theorem queryLevelIn_ok_inv (df : Frame) (col : String) (vals : List String) (sub : Frame)
    (h : queryLevelIn df col vals = .ok sub) :
    col ∈ df.names ∧
    sub = { df with rows := df.rows.filter (fun r =>
      match rowLookup df.names r.1 col with
      | some v => vals.contains v
      | none => false) } := by
  unfold queryLevelIn at h
  split at h
  · next hcond =>
    simp only [Except.ok.injEq] at h
    exact ⟨of_decide_eq_true hcond, h.symm⟩
  · exact absurd h (by simp)

theorem aggRulesGo_forall₂ (df : Frame) (col : String) :
    ∀ (rules : List AggRule) (frs : List Frame),
      aggRulesGo df col rules = .ok frs →
      List.Forall₂ (fun rule fr => ∃ sub grouped,
        queryLevelIn df col rule.values = .ok sub ∧
        groupbySum sub (df.names.filter (fun n => n ≠ col)) = .ok grouped ∧
        iamcify grouped (grouped.rows.map (fun _ => rule.var)) = .ok fr) rules frs := by
  intro rules
  induction rules with
  | nil =>
    intro frs h
    simp only [aggRulesGo, Except.ok.injEq] at h
    subst h
    exact List.Forall₂.nil
  | cons rule rest ih =>
    intro frs h
    unfold aggRulesGo at h
    split at h
    · exact absurd h (by simp)
    · next sub hsub =>
      split at h
      · exact absurd h (by simp)
      · next grouped hgrouped =>
        split at h
        · exact absurd h (by simp)
        · next fr hfr =>
          split at h
          · exact absurd h (by simp)
          · next frs' hfrs' =>
            simp only [Except.ok.injEq] at h
            subst h
            exact List.Forall₂.cons ⟨sub, grouped, hsub, hgrouped, hfr⟩ (ih frs' hfrs')

/-- C2 counterexample: for an entry whose `iamc` is a literal rather than a
template, the level restriction that removes aggregated values runs only in
the template branch of `IAMconv.to_df`, so the aggregated value's rows leak
into the residual fragment.  With `agg = {technology: [{values: [a],
variable: Agg}]}`, configured universe `{a, d}` and rows `a ↦ 7`, `d ↦ 5`,
the residual fragment contains the `a`-row (value 7, double-counted besides
the `Agg` fragment) — refuting "no value in {a,b,c} appears in the
non-aggregated fragment". -/
theorem agg_disjointness_counterexample :
    composeEntry
        [("model", .value "m"), ("scenario", .value "s"), ("region", .value "r"),
         ("unit", .value "u"), ("year", .value "2020"),
         ("technology", .levels [("a", "A"), ("d", "D")])]
        { path := "cap.csv", idxcols := ["technology"], iamc := "Lit"
          agg := [("technology", [{ values := ["a"], var := "Agg" }])] }
        { names := ["technology"], colName := "cap", rows := [(["a"], 7), (["d"], 5)] }
      = .ok
        [{ names := IAMC_IDX, colName := "value"
           rows := [(["m", "s", "r", "Agg", "u", "2020"], 7)] },
         { names := IAMC_IDX, colName := "value"
           rows := [(["m", "s", "r", "Lit", "u", "2020"], 7),
                    (["m", "s", "r", "Lit", "u", "2020"], 5)] }]
      ∧ (["m", "s", "r", "Lit", "u", "2020"], 7) ∈
          ({ names := IAMC_IDX, colName := "value"
             rows := [(["m", "s", "r", "Lit", "u", "2020"], 7),
                      (["m", "s", "r", "Lit", "u", "2020"], 5)] } : Frame).rows := by
  exact ⟨by rfl, by simp⟩

/-- C2 (amended): for a *templated* entry with `agg` rules on `col` — and
provided the level values of the data at the other user columns lie in their
configured universes and outside the aggregated union (with nonduplicated
level names) — `IAMconv.to_df` emits exactly one summed fragment per rule,
built by sum-grouping exactly the rows whose `col` value lies in that rule's
`values` list (no outside value contributes), plus a residual fragment built
from exactly the rows whose `col` value is configured and non-aggregated (no
aggregated value appears in it).  The claim as frozen fails for literal
(non-template) entries, see the counterexample. -/
theorem agg_disjointness (indices : Indices) (entry : IndexEntry) (df0 df₁ : Frame)
    (frames : List Frame) (col : String) (rules : List AggRule)
    (lvls : List (String × Series)) (colSer : Series)
    (hdf₁ : df₁ = resolve_idxcol_defaults indices df0)
    (hagg : entry.agg = [(col, rules)])
    (hfmt : is_fmtstr entry.iamc = true)
    (hlvls : seriesOfLevels (index_levels indices df₁.names) = .ok lvls)
    (hnd : df₁.names.Nodup)
    (hndl : (lvls.map Prod.fst).Nodup)
    (hcol : lvls.lookup col = some colSer)
    (hothers : ∀ r ∈ df₁.rows, ∀ cs ∈ lvls, cs.1 ≠ col →
      ∀ w, rowLookup df₁.names r.1 cs.1 = some w →
        w ∈ seriesKeys cs.2 ∧ w ∉ ((rules.map AggRule.values).flatten).dedup)
    (hok : composeEntry indices entry df0 = .ok frames) :
    ∃ aggFrames resid,
      frames = aggFrames ++ [resid]
      ∧ aggFrames.length = rules.length
      ∧ List.Forall₂ (fun (rule : AggRule) (fr : Frame) =>
          ∃ grouped,
            groupbySum
              { df₁ with rows := df₁.rows.filter (fun r =>
                  match rowLookup df₁.names r.1 col with
                  | some v => rule.values.contains v
                  | none => false) }
              (df₁.names.filter (fun n => n ≠ col)) = .ok grouped
            ∧ iamcify grouped (grouped.rows.map (fun _ => rule.var)) = .ok fr)
          rules aggFrames
      ∧ ∃ vars,
          iamcify
            { df₁ with rows := df₁.rows.filter (fun r =>
                match rowLookup df₁.names r.1 col with
                | some v => (seriesKeys colSer).contains v
                    && !(((rules.map AggRule.values).flatten).dedup.contains v)
                | none => false) }
            vars = .ok resid := by
  subst hdf₁
  unfold composeEntry at hok
  simp only [hlvls] at hok
  rw [hagg] at hok
  simp only [List.isEmpty_cons, Bool.false_eq_true, if_false, agg_vals_all] at hok
  set dfD := resolve_idxcol_defaults indices df0 with hdfD
  set A := (List.map AggRule.values rules).flatten.dedup with hA
  split at hok
  · exact absurd hok (by simp)
  next dfAgg hdfAgg =>
  split at hok
  · exact absurd hok (by simp)
  next aggFrames hAggIdx =>
  simp only [hcol] at hok
  split at hok
  · exact absurd hok (by simp)
  next df₂ hdf₂ =>
  split at hok
  · exact absurd hok (by simp)
  next resid hresid =>
  simp only [Except.ok.injEq] at hok
  subst hok
  -- invert the aggregation side
  obtain ⟨hcolmem, hdfAggEq⟩ := queryLevelIn_ok_inv dfD col A dfAgg hdfAgg
  unfold agg_idxcol at hAggIdx
  rw [hagg] at hAggIdx
  simp only [List.lookup, beq_self_eq_true] at hAggIdx
  have hsubset : ∀ rule ∈ rules, ∀ v, rule.values.contains v = true → A.contains v = true := by
    intro rule hrule v hv
    rw [contains_iff_mem] at hv ⊢
    rw [hA, List.mem_dedup, List.mem_flatten]
    exact ⟨rule.values, List.mem_map.mpr ⟨rule, hrule, rfl⟩, hv⟩
  have hforall : List.Forall₂ (fun (rule : AggRule) (fr : Frame) =>
      ∃ grouped,
        groupbySum { dfD with rows := dfD.rows.filter (fun r =>
            match rowLookup dfD.names r.1 col with
            | some v => rule.values.contains v
            | none => false) }
          (dfD.names.filter (fun n => n ≠ col)) = .ok grouped
        ∧ iamcify grouped (grouped.rows.map (fun _ => rule.var)) = .ok fr)
      rules aggFrames := by
    refine forall₂_imp_mem (aggRulesGo_forall₂ dfAgg col rules aggFrames hAggIdx) ?_
    intro rule hrule fr hfr
    obtain ⟨sub, grouped, hsub, hgrp, hiamc⟩ := hfr
    obtain ⟨-, hsubEq⟩ := queryLevelIn_ok_inv dfAgg col rule.values sub hsub
    refine ⟨grouped, ?_, hiamc⟩
    have hframe : ({ dfD with rows := dfD.rows.filter (fun r =>
        match rowLookup dfD.names r.1 col with
        | some v => rule.values.contains v
        | none => false) } : Frame) = sub := by
      rw [hsubEq, hdfAggEq]
      simp only
      congr 1
      rw [List.filter_filter]
      refine List.filter_congr ?_
      intro r hr
      cases hv : rowLookup dfD.names r.1 col with
      | none => simp
      | some v =>
        simp only
        cases hrv : rule.values.contains v with
        | false => simp [hrv]
        | true =>
          simp only [hrv, Bool.true_and]
          exact (hsubset rule hrule v hrv).symm
    have hnamesAgg : dfAgg.names = dfD.names := by rw [hdfAggEq]
    rw [hframe]
    rw [hnamesAgg] at hgrp
    exact hgrp
  refine ⟨aggFrames, resid, rfl, hforall.length_eq.symm, hforall, ?_⟩
  obtain ⟨-, hdf₂Eq⟩ := queryLevelIn_ok_inv dfD col (seriesKeys colSer) df₂ hdf₂
  unfold residual_frame at hresid
  rw [hfmt] at hresid
  simp only [if_true] at hresid
  split at hresid
  · exact absurd hresid (by simp)
  next vars hvars =>
  refine ⟨vars, ?_⟩
  have hsel : (restrictLevels lvls A dfD).map (fun cs => (cs.1, seriesKeys cs.2))
      = lvls.map (fun cs => (cs.1, seriesKeys (cs.2.filter (fun kv =>
          !(A.contains kv.1) && (idx_lvl_values dfD cs.1).contains kv.1)))) := by
    unfold restrictLevels
    rw [List.map_map]
    rfl
  have hcs₀ : (col, colSer) ∈ lvls := lookup_some_mem lvls col colSer hcol
  have hframe : ({ dfD with rows := dfD.rows.filter (fun r =>
      match rowLookup dfD.names r.1 col with
      | some v => (seriesKeys colSer).contains v && !(A.contains v)
      | none => false) } : Frame)
      = locSelect df₂ ((restrictLevels lvls A dfD).map (fun cs => (cs.1, seriesKeys cs.2))) := by
    rw [hdf₂Eq]
    unfold locSelect
    simp only
    congr 1
    rw [List.filter_filter]
    refine List.filter_congr ?_
    intro r hr
    cases hv : rowLookup dfD.names r.1 col with
    | none => simp [hv]
    | some v =>
      simp only [hv]
      cases hkv : (seriesKeys colSer).contains v with
      | false => simp [hkv]
      | true =>
        simp only [hkv, Bool.true_and, Bool.and_true]
        cases hag : A.contains v with
        | true =>
          simp only [Bool.not_true]
          symm
          rw [Bool.eq_false_iff]
          intro hpl
          have hpair : (col, v) ∈ dfD.names.zip r.1 := lookup_some_mem _ _ _ hv
          have hall := List.all_eq_true.mp hpl (col, v) hpair
          rw [hsel] at hall
          have hlook := lookup_map_sel lvls
            (fun cs => seriesKeys (cs.2.filter (fun kv =>
              !(A.contains kv.1) && (idx_lvl_values dfD cs.1).contains kv.1)))
            (col, colSer) hcs₀ hndl
          simp only [hlook] at hall
          have hvmem := (contains_iff_mem _ _).mp hall
          have := (mem_seriesKeys_filter colSer
            (fun k => !(A.contains k) && (idx_lvl_values dfD col).contains k) v).mp hvmem
          rw [hag] at this
          simp at this
        | false =>
          simp only [Bool.not_false]
          symm
          rw [List.all_eq_true]
          intro pair hpairmem
          obtain ⟨n, w⟩ := pair
          simp only
          cases hseln : List.lookup n ((restrictLevels lvls A dfD).map
              (fun cs => (cs.1, seriesKeys cs.2))) with
          | none => simp
          | some allowed =>
            simp only
            have hmem' := lookup_some_mem _ _ _ hseln
            rw [hsel] at hmem'
            rcases List.mem_map.mp hmem' with ⟨cs, hcsmem, hcseq⟩
            have hcs1 : cs.1 = n := congrArg Prod.fst hcseq
            have hallowed : allowed = seriesKeys (cs.2.filter (fun kv =>
                !(A.contains kv.1) && (idx_lvl_values dfD cs.1).contains kv.1)) :=
              (congrArg Prod.snd hcseq).symm
            have hwlook : rowLookup dfD.names r.1 n = some w :=
              lookup_of_mem_nodup _ _ _ (zip_fst_nodup dfD.names r.1 hnd) hpairmem
            have hpresent : w ∈ idx_lvl_values dfD cs.1 := by
              rw [hcs1]
              exact mem_idx_lvl_values dfD n r hr w hwlook
            rw [hallowed]
            by_cases hcase : cs.1 = col
            · have hwv : w = v := by
                have : rowLookup dfD.names r.1 col = some w := by
                  rw [← hcase, hcs1]
                  exact hwlook
                rw [hv] at this
                exact (Option.some.injEq _ _ ▸ this).symm
              have hsercol : cs.2 = colSer := by
                have h₁ : List.lookup col lvls = some cs.2 := by
                  rw [← hcase]
                  exact lookup_of_mem_nodup lvls cs.1 cs.2 hndl hcsmem
                rw [hcol] at h₁
                exact (Option.some.injEq _ _ ▸ h₁).symm
              subst hwv
              refine (contains_iff_mem _ _).mpr
                ((mem_seriesKeys_filter cs.2
                  (fun k => !(A.contains k) && (idx_lvl_values dfD cs.1).contains k) w).mpr
                  ⟨by rw [hsercol]; exact (contains_iff_mem _ _).mp hkv, ?_⟩)
              rw [hag]
              simp only [Bool.not_false, Bool.true_and]
              exact (contains_iff_mem _ _).mpr hpresent
            · have hother := hothers r hr cs hcsmem (by rw [hcs1] at hcase ⊢; exact hcase)
                w (by rw [hcs1]; exact hwlook)
              refine (contains_iff_mem _ _).mpr
                ((mem_seriesKeys_filter cs.2
                  (fun k => !(A.contains k) && (idx_lvl_values dfD cs.1).contains k) w).mpr
                  ⟨hother.1, ?_⟩)
              have hwA : A.contains w = false := by
                cases hh : A.contains w
                · rfl
                · exact absurd ((contains_iff_mem _ _).mp hh) hother.2
              rw [hwA]
              simp only [Bool.not_false, Bool.true_and]
              exact (contains_iff_mem _ _).mpr hpresent
  rw [hframe]
  exact hresid

/-- Witness for the amended C2 at a concrete templated entry. -/
theorem agg_disjointness_witness :
    ∃ aggFrames resid,
      ([{ names := IAMC_IDX, colName := "value"
          rows := [(["m", "s", "r", "Agg", "u", "2020"], 7)] },
        { names := IAMC_IDX, colName := "value"
          rows := [(["m", "s", "r", "Cap|D", "u", "2020"], 5)] }] : List Frame)
        = aggFrames ++ [resid]
      ∧ aggFrames.length = ([{ values := ["a"], var := "Agg" }] : List AggRule).length
      ∧ List.Forall₂ (fun (rule : AggRule) (fr : Frame) =>
          ∃ grouped,
            groupbySum
              { ({ names := ["technology", "model", "scenario", "region", "unit", "year"]
                   colName := "cap"
                   rows := [(["a", "m", "s", "r", "u", "2020"], 7),
                            (["d", "m", "s", "r", "u", "2020"], 5)] } : Frame) with
                rows := ({ names := ["technology", "model", "scenario", "region", "unit", "year"]
                           colName := "cap"
                           rows := [(["a", "m", "s", "r", "u", "2020"], 7),
                                    (["d", "m", "s", "r", "u", "2020"], 5)] } : Frame).rows.filter
                  (fun r =>
                    match rowLookup ["technology", "model", "scenario", "region", "unit", "year"]
                        r.1 "technology" with
                    | some v => rule.values.contains v
                    | none => false) }
              (["technology", "model", "scenario", "region", "unit", "year"].filter
                (fun n => n ≠ "technology")) = .ok grouped
            ∧ iamcify grouped (grouped.rows.map (fun _ => rule.var)) = .ok fr)
          [{ values := ["a"], var := "Agg" }] aggFrames
      ∧ ∃ vars,
          iamcify
            { ({ names := ["technology", "model", "scenario", "region", "unit", "year"]
                 colName := "cap"
                 rows := [(["a", "m", "s", "r", "u", "2020"], 7),
                          (["d", "m", "s", "r", "u", "2020"], 5)] } : Frame) with
              rows := ({ names := ["technology", "model", "scenario", "region", "unit", "year"]
                         colName := "cap"
                         rows := [(["a", "m", "s", "r", "u", "2020"], 7),
                                  (["d", "m", "s", "r", "u", "2020"], 5)] } : Frame).rows.filter
                (fun r =>
                  match rowLookup ["technology", "model", "scenario", "region", "unit", "year"]
                      r.1 "technology" with
                  | some v => (seriesKeys [("a", "A"), ("d", "D")]).contains v
                      && !((([{ values := ["a"], var := "Agg" }].map
                            AggRule.values).flatten).dedup.contains v)
                  | none => false) }
            vars = .ok resid :=
  agg_disjointness
    [("model", .value "m"), ("scenario", .value "s"), ("region", .value "r"),
     ("unit", .value "u"), ("year", .value "2020"),
     ("technology", .levels [("a", "A"), ("d", "D")])]
    { path := "cap.csv", idxcols := ["technology"], iamc := "Cap|{technology}"
      agg := [("technology", [{ values := ["a"], var := "Agg" }])] }
    { names := ["technology"], colName := "cap", rows := [(["a"], 7), (["d"], 5)] }
    { names := ["technology", "model", "scenario", "region", "unit", "year"]
      colName := "cap"
      rows := [(["a", "m", "s", "r", "u", "2020"], 7), (["d", "m", "s", "r", "u", "2020"], 5)] }
    [{ names := IAMC_IDX, colName := "value"
       rows := [(["m", "s", "r", "Agg", "u", "2020"], 7)] },
     { names := IAMC_IDX, colName := "value"
       rows := [(["m", "s", "r", "Cap|D", "u", "2020"], 5)] }]
    "technology" [{ values := ["a"], var := "Agg" }]
    [("technology", [("a", "A"), ("d", "D")])] [("a", "A"), ("d", "D")]
    (by rfl) (by rfl) (by rfl) (by rfl) (by decide) (by decide) (by rfl)
    (by decide) (by rfl)

/-- C3 counterexample: when no input file matches any index entry, the
fragment list stays empty and `pd.concat(dfs)` raises `ValueError` — so
`IAMconv.to_df` raises on this empty result rather than returning an empty
table with one warning. -/
theorem to_df_empty_counterexample :
    IAMconv_to_df
      { indices := [("model", .value "m"), ("scenario", .value "s"),
          ("region", .value "r"), ("unit", .value "u"), ("year", .value "2020"),
          ("technology", .levels [("a", "A")])]
        res_idx := [{ path := "cap.csv", idxcols := ["technology"], iamc := "Lit"
                      agg := [] }] }
      (fun _ => { names := ["technology"], colName := "cap", rows := [] })
      ["other.csv"]
      = .error "ValueError: No objects to concatenate" := by
  rfl

theorem composeEntry_ne_nil (indices : Indices) (entry : IndexEntry) (df0 : Frame)
    (frames : List Frame) (h : composeEntry indices entry df0 = .ok frames) :
    frames ≠ [] := by
  unfold composeEntry at h
  cases hs : seriesOfLevels
      (index_levels indices (resolve_idxcol_defaults indices df0).names) with
  | error e =>
    simp only [hs] at h
    exact absurd h (by simp)
  | ok lvls =>
    simp only [hs] at h
    split at h
    · split at h
      · exact absurd h (by simp)
      · simp only [Except.ok.injEq] at h
        subst h
        simp
    · split at h
      · exact absurd h (by simp)
      · split at h
        · exact absurd h (by simp)
        · split at h
          · exact absurd h (by simp)
          · split at h
            · exact absurd h (by simp)
            · split at h
              · exact absurd h (by simp)
              · split at h
                · exact absurd h (by simp)
                · simp only [Except.ok.injEq] at h
                  subst h
                  simp

theorem to_df_go_empty (conv : IAMconvM) (read : String → Frame) :
    ∀ (files : List String) (dfs : List Frame) (warns : List String),
      (∀ f ∈ files, (matchEntries conv f).length ≤ 1) →
      (∀ f ∈ files, ∀ entry ∈ matchEntries conv f, ∃ frames,
        composeEntry conv.indices entry (read f) = .ok frames
          ∧ ∀ fr ∈ frames, fr.rows = []) →
      (∀ fr ∈ dfs, fr.rows = ([] : List (List String × Int))) →
      ∃ dfs', to_df_go conv read files dfs warns = .ok (dfs', warns)
        ∧ (∀ fr ∈ dfs', fr.rows = [])
        ∧ ((dfs ≠ [] ∨ ∃ f ∈ files, matchEntries conv f ≠ []) → dfs' ≠ []) := by
  intro files
  induction files with
  | nil =>
    intro dfs warns _ _ hdfs
    refine ⟨dfs, rfl, hdfs, ?_⟩
    rintro (h | ⟨f, hf, _⟩)
    · exact h
    · exact absurd hf (List.not_mem_nil f)
  | cons fpath files ih =>
    intro dfs warns hnodup hempty hdfs
    cases hm : matchEntries conv fpath with
    | nil =>
      obtain ⟨dfs', hgo, hdfs', hne⟩ := ih dfs warns
        (fun f hf => hnodup f (List.mem_cons_of_mem fpath hf))
        (fun f hf => hempty f (List.mem_cons_of_mem fpath hf)) hdfs
      refine ⟨dfs', ?_, hdfs', ?_⟩
      · simpa only [to_df_go, hm] using hgo
      · rintro (h | ⟨f, hf, hfm⟩)
        · exact hne (Or.inl h)
        · rcases List.mem_cons.mp hf with h' | h'
          · exact absurd (h' ▸ hm) hfm
          · exact hne (Or.inr ⟨f, h', hfm⟩)
    | cons entry rest =>
      have hrest : rest = [] := by
        have := hnodup fpath (List.mem_cons_self fpath files)
        rw [hm] at this
        simp only [List.length_cons] at this
        exact List.length_eq_zero.mp (Nat.le_zero.mp (Nat.succ_le_succ_iff.mp this))
      subst hrest
      obtain ⟨frames, hcomp, hframes⟩ := hempty fpath (List.mem_cons_self fpath files)
        entry (hm ▸ List.mem_cons_self entry [])
      obtain ⟨dfs', hgo, hdfs', hne⟩ := ih (dfs ++ frames) warns
        (fun f hf => hnodup f (List.mem_cons_of_mem fpath hf))
        (fun f hf => hempty f (List.mem_cons_of_mem fpath hf))
        (fun fr hfr => (List.mem_append.mp hfr).elim (hdfs fr) (hframes fr))
      refine ⟨dfs', ?_, hdfs', ?_⟩
      · simpa only [to_df_go, hm, hcomp, List.isEmpty_nil, if_true] using hgo
      · intro _
        refine hne (Or.inl ?_)
        have := composeEntry_ne_nil conv.indices entry (read fpath) frames hcomp
        intro hcontra
        rcases List.append_eq_nil.mp hcontra with ⟨-, h₂⟩
        exact this h₂

/-- C3 (amended): when at least one input file matches an index entry, no
file has duplicate matches, and every matched file's fragments are empty,
`IAMconv.to_df` returns an empty table and logs exactly one warning.  But
when no file matches any index entry (or the file list is empty), the final
`pd.concat(dfs)` raises `ValueError` instead of returning an empty table —
the claim as frozen fails there, see the counterexample. -/
theorem to_df_empty_result (conv : IAMconvM) (read : String → Frame)
    (files : List String)
    (hmatch : ∃ f ∈ files, matchEntries conv f ≠ [])
    (hnodup : ∀ f ∈ files, (matchEntries conv f).length ≤ 1)
    (hempty : ∀ f ∈ files, ∀ entry ∈ matchEntries conv f, ∃ frames,
      composeEntry conv.indices entry (read f) = .ok frames
        ∧ ∀ fr ∈ frames, fr.rows = []) :
    ∃ cat, IAMconv_to_df conv read files = .ok (cat, [emptyWarning])
      ∧ cat.rows = [] := by
  obtain ⟨dfs', hgo, hdfs', hne⟩ :=
    to_df_go_empty conv read files [] [] hnodup hempty (by simp)
  have hnonnil := hne (Or.inr hmatch)
  cases hd : dfs' with
  | nil => exact absurd hd hnonnil
  | cons d ds =>
    subst hd
    have hcatrows : ((d :: ds).map Frame.rows).flatten = [] := by
      rw [List.flatten_eq_nil_iff]
      intro l hl
      rcases List.mem_map.mp hl with ⟨fr, hfr, hfl⟩
      rw [← hfl]
      exact hdfs' fr hfr
    refine ⟨{ names := d.names, colName := d.colName
              rows := ((d :: ds).map Frame.rows).flatten }, ?_, hcatrows⟩
    unfold IAMconv_to_df
    rw [hgo]
    simp only [hcatrows, List.isEmpty_nil, if_true, List.nil_append]

/-- Witness for the amended C3: a matching file whose table has no rows. -/
theorem to_df_empty_result_witness :
    ∃ cat,
      IAMconv_to_df
        { indices := [("model", .value "m"), ("scenario", .value "s"),
            ("region", .value "r"), ("unit", .value "u"), ("year", .value "2020"),
            ("technology", .levels [("a", "A")])]
          res_idx := [{ path := "cap.csv", idxcols := ["technology"], iamc := "Lit"
                        agg := [] }] }
        (fun _ => { names := ["technology"], colName := "cap", rows := [] })
        ["cap.csv"]
        = .ok (cat, [emptyWarning]) ∧ cat.rows = [] := by
  refine to_df_empty_result _ _ _ ⟨"cap.csv", by simp, by decide⟩ (by decide) ?_
  intro f hf entry hentry
  simp only [List.mem_singleton] at hf
  subst hf
  have hent : entry = { path := "cap.csv", idxcols := ["technology"], iamc := "Lit"
                        agg := [] } := by
    simpa [matchEntries, mkResIdx] using hentry
  subst hent
  exact ⟨[{ names := IAMC_IDX, colName := "value", rows := [] }], by rfl, by simp⟩


theorem forall₂_map_map {α β γ : Type} (l : List α) (f : α → β) (g : α → γ)
    (P : β → γ → Prop) (h : ∀ a ∈ l, P (f a) (g a)) :
    List.Forall₂ P (l.map f) (l.map g) := by
  induction l with
  | nil => exact List.Forall₂.nil
  | cons a as ih =>
    exact List.Forall₂.cons (h a (List.mem_cons_self a as))
      (ih (fun x hx => h x (List.mem_cons_of_mem a hx)))

theorem forall₂_swap {α β : Type} {R : α → β → Prop} :
    ∀ {l : List α} {m : List β}, List.Forall₂ R l m →
      List.Forall₂ (fun b a => R a b) m l := by
  intro l m h
  induction h with
  | nil => exact List.Forall₂.nil
  | cons hab _ ih => exact List.Forall₂.cons hab ih

theorem omap_congr {α β : Type} (f g : α → Option β) :
    ∀ (l : List α), (∀ a ∈ l, f a = g a) → omap f l = omap g l := by
  intro l h
  induction l with
  | nil => rfl
  | cons a as ih =>
    simp only [omap, h a (List.mem_cons_self a as),
      ih (fun x hx => h x (List.mem_cons_of_mem a hx))]

/-- C1: counterexample to the frozen round-trip claim.  With the `technology`
level universe restricted to `wind`, composing a table that also carries a
`solar` row drops that row, and decomposing the composed table yields a frame
that additionally carries the resolved default IAMC columns — so the
round-trip result is not equal to the input table. -/
theorem roundtrip_counterexample :
    IAMconv_to_df
        ⟨[("model", .value "m"), ("scenario", .value "s"), ("region", .value "r"),
          ("unit", .value "u"), ("year", .value "2030"),
          ("technology", .levels [("wind", "Wind")])],
         [{ path := "capacity.csv", idxcols := ["technology"]
            iamc := "Capacity|{technology}", agg := [] }]⟩
        (fun _ => { names := ["technology"], colName := "capacity"
                    rows := [(["wind"], 10), (["solar"], 5)] })
        ["capacity.csv"]
      = .ok ({ names := ["model", "scenario", "region", "variable", "unit", "year"]
               colName := "value"
               rows := [(["m", "s", "r", "Capacity|Wind", "u", "2030"], 10)] }, [])
    ∧ _varwidx
        [("model", .value "m"), ("scenario", .value "s"), ("region", .value "r"),
         ("unit", .value "u"), ("year", .value "2030"),
         ("technology", .levels [("wind", "Wind")])]
        { path := "capacity.csv", idxcols := ["technology"]
          iamc := "Capacity|{technology}", agg := [] }
        { names := ["model", "scenario", "region", "variable", "unit", "year"]
          colName := "value"
          rows := [(["m", "s", "r", "Capacity|Wind", "u", "2030"], 10)] }
      = .ok { names := ["model", "scenario", "region", "unit", "year", "technology"]
              colName := "capacity"
              rows := [(["m", "s", "r", "u", "2030", "wind"], 10)] }
    ∧ Frame.equiv
        { names := ["model", "scenario", "region", "unit", "year", "technology"]
          colName := "capacity"
          rows := [(["m", "s", "r", "u", "2030", "wind"], 10)] }
        { names := ["technology"], colName := "capacity"
          rows := [(["wind"], 10), (["solar"], 5)] }
      = false :=
  ⟨by rfl, by rfl, by rfl⟩


/-- C1 (amended): for a templated entry without aggregation, decomposing the
composed frame with the same entry reproduces the input table with the
configured IAMC default columns appended (`resolve_idxcol_defaults`), provided
every row value of each user index level lies in the configured level universe
(which may strictly contain the values occurring in the data), the frame's
level names are distinct, the configured levels cover the non-IAMC columns,
level keys are pipe-free and the case-folded formatted variables are
unambiguous.  Equality with the raw input fails, see the counterexample. -/
theorem roundtrip_up_to_defaults (indices : Indices) (entry : IndexEntry)
    (df0 df₁ : Frame) (lvls : List (String × Series))
    (values : List (String × String)) (composed dec : Frame)
    (hdf₁ : df₁ = resolve_idxcol_defaults indices df0)
    (hagg : entry.agg = [])
    (hfmt : is_fmtstr entry.iamc = true)
    (hwf : df0.WF)
    (hvarnot : "variable" ∉ df₁.names)
    (hlvls : seriesOfLevels (index_levels indices df₁.names) = .ok lvls)
    (hidx : index_levels indices entry.idxcols = index_levels indices df₁.names)
    (hnd : df₁.names.Nodup)
    (huniv : ∀ ρ ∈ df₁.rows, ∀ cs ∈ lvls, ∀ v,
      rowLookup df₁.names ρ.1 cs.1 = some v → v ∈ seriesKeys cs.2)
    (hndl : (lvls.map Prod.fst).Nodup)
    (hnopipe : ∀ cs ∈ lvls, ∀ kv ∈ cs.2, ∀ c ∈ kv.1.toList, c ≠ '|')
    (hlvlsne : lvls ≠ [])
    (husercols : ∀ n ∈ df₁.names, n ∉ IAMC_IDX → n ∈ lvls.map Prod.fst)
    (hdict : omap (fun kv : List String × List String =>
          (pyformat entry.iamc ((lvls.map Prod.fst).zip kv.2)).map
            (fun s => (pyLower s, pyJoin '|' kv.1)))
        ((cartProd (lvls.map (fun cs => cs.2.map Prod.fst))).zip
          (cartProd (lvls.map (fun cs => cs.2.map Prod.snd)))) = some values)
    (hvalsnd : (values.map Prod.fst).Nodup)
    (hcomp : composeEntry indices entry df0 = .ok [composed])
    (hdec : _varwidx indices entry composed = .ok dec) :
    Frame.equiv dec df₁ = true := by
  subst hdf₁
  unfold composeEntry at hcomp
  simp only [hlvls] at hcomp
  rw [hagg] at hcomp
  simp only [List.isEmpty_nil, if_true] at hcomp
  set R := resolve_idxcol_defaults indices df0 with hRdef
  split at hcomp
  · exact absurd hcomp (by simp)
  next fr hfr =>
  simp only [Except.ok.injEq, List.cons.injEq, and_true] at hcomp
  subst hcomp
  have hwf₁ : R.WF := resolve_wf indices df0 hwf
  obtain ⟨hmapfst, -⟩ := seriesOfLevels_cols (index_levels indices R.names) lvls hlvls
  have hcolmem : ∀ cs ∈ lvls, cs.1 ∈ R.names ∧ cs.1 ∉ IAMC_IDX := by
    intro cs hcs
    have h1 : cs.1 ∈ lvls.map Prod.fst := List.mem_map.mpr ⟨cs, hcs, rfl⟩
    rw [hmapfst] at h1
    rcases List.mem_map.mp h1 with ⟨cd, hcd, heq⟩
    unfold index_levels at hcd
    have h2 := (List.mem_filter.mp hcd).2
    simp only [Bool.and_eq_true, decide_eq_true_eq] at h2
    exact ⟨heq ▸ h2.1, heq ▸ h2.2⟩
  have hcsfact : ∀ ρ ∈ R.rows, ∀ cs ∈ lvls,
      ∃ k v, rowLookup R.names ρ.1 cs.1 = some k ∧ List.lookup k cs.2 = some v
        ∧ (k, v) ∈ cs.2 := by
    intro ρ hρ cs hcs
    obtain ⟨k, hk, -⟩ := rowLookup_zip_mem R.names ρ.1 cs.1 (hwf₁ ρ hρ) (hcolmem cs hcs).1
    have hkmem : k ∈ cs.2.map Prod.fst := by
      simpa [seriesKeys] using huniv ρ hρ cs hcs k hk
    obtain ⟨v, hv⟩ := Option.isSome_iff_exists.mp (lookup_isSome_of_mem_keys cs.2 k hkmem)
    exact ⟨k, v, hk, hv, lookup_some_mem _ _ _ hv⟩
  have hselEq : (restrictLevels lvls [] R).map (fun cs => (cs.1, seriesKeys cs.2))
      = lvls.map (fun cs => (cs.1, seriesKeys (cs.2.filter (fun kv =>
          !(([] : List String).contains kv.1)
            && (idx_lvl_values R cs.1).contains kv.1)))) := by
    unfold restrictLevels
    rw [List.map_map]
    rfl
  have hlocEq : locSelect R
      ((restrictLevels lvls [] R).map (fun cs => (cs.1, seriesKeys cs.2))) = R := by
    have hrws : R.rows.filter (fun r => (R.names.zip r.1).all (fun nv =>
        match List.lookup nv.1 ((restrictLevels lvls [] R).map
          (fun cs => (cs.1, seriesKeys cs.2))) with
        | some allowed => allowed.contains nv.2
        | none => true)) = R.rows := by
      refine List.filter_eq_self.mpr ?_
      intro ρ hρ
      refine List.all_eq_true.mpr ?_
      intro nv hnv
      obtain ⟨n, w⟩ := nv
      simp only
      cases hseln : List.lookup n ((restrictLevels lvls [] R).map
          (fun cs => (cs.1, seriesKeys cs.2))) with
      | none => simp
      | some allowed =>
        simp only
        have hmem' := lookup_some_mem _ _ _ hseln
        rw [hselEq] at hmem'
        rcases List.mem_map.mp hmem' with ⟨cs, hcsmem, hcseq⟩
        have hcs1 : cs.1 = n := congrArg Prod.fst hcseq
        have hallowed : allowed = seriesKeys (cs.2.filter (fun kv =>
            !(([] : List String).contains kv.1)
              && (idx_lvl_values R cs.1).contains kv.1)) :=
          (congrArg Prod.snd hcseq).symm
        have hwlook : rowLookup R.names ρ.1 n = some w :=
          lookup_of_mem_nodup _ _ _ (zip_fst_nodup R.names ρ.1 hnd) hnv
        have hwuniv : w ∈ seriesKeys cs.2 :=
          huniv ρ hρ cs hcsmem w (by rw [hcs1]; exact hwlook)
        have hwidx : w ∈ idx_lvl_values R cs.1 := by
          rw [hcs1]
          exact mem_idx_lvl_values R n ρ hρ w hwlook
        rw [hallowed]
        refine (contains_iff_mem _ _).mpr
          ((mem_seriesKeys_filter cs.2 (fun k =>
            !(([] : List String).contains k)
              && (idx_lvl_values R cs.1).contains k) w).mpr ⟨hwuniv, ?_⟩)
        rw [Bool.and_eq_true]
        exact ⟨rfl, (contains_iff_mem _ _).mpr hwidx⟩
    exact congrArg
      (fun rs => ({ names := R.names, colName := R.colName, rows := rs } : Frame)) hrws
  unfold residual_frame at hfr
  rw [hfmt] at hfr
  simp only [if_true] at hfr
  rw [hlocEq] at hfr
  split at hfr
  · exact absurd hfr (by simp)
  next vars hvars =>
  unfold iamcVariable at hvars
  split at hvars
  · exact absurd hvars (by simp)
  next vs homap0 =>
  simp only [Except.ok.injEq] at hvars
  subst hvars
  have hfmtarg : ∀ ρ ∈ R.rows,
      (restrictLevels lvls [] R).map (fun cs =>
        (cs.1, ((rowLookup R.names ρ.1 cs.1).bind (fun k => List.lookup k cs.2)).getD "nan"))
      = lvls.map (fun cs =>
        (cs.1, ((rowLookup R.names ρ.1 cs.1).bind (fun k => List.lookup k cs.2)).getD "nan")) := by
    intro ρ hρ
    unfold restrictLevels
    rw [List.map_map]
    refine List.map_congr_left ?_
    intro cs hcs
    obtain ⟨k, v, hk, hv, -⟩ := hcsfact ρ hρ cs hcs
    have hq : (!(([] : List String).contains k)
        && (idx_lvl_values R cs.1).contains k) = true := by
      rw [Bool.and_eq_true]
      exact ⟨rfl, (contains_iff_mem _ _).mpr (mem_idx_lvl_values R cs.1 ρ hρ k hk)⟩
    have hlk := lookup_filter_key cs.2 (fun x =>
      !(([] : List String).contains x) && (idx_lvl_values R cs.1).contains x) k hq
    show (cs.1, ((rowLookup R.names ρ.1 cs.1).bind (fun k => List.lookup k
        (cs.2.filter (fun kv => !(([] : List String).contains kv.1)
          && (idx_lvl_values R cs.1).contains kv.1)))).getD "nan")
      = (cs.1, ((rowLookup R.names ρ.1 cs.1).bind (fun k => List.lookup k cs.2)).getD "nan")
    rw [hk]
    show (cs.1, (List.lookup k (cs.2.filter (fun kv =>
        !(([] : List String).contains kv.1)
          && (idx_lvl_values R cs.1).contains kv.1))).getD "nan")
      = (cs.1, (List.lookup k cs.2).getD "nan")
    simp only [hlk]
  have homap : omap (fun r : List String × Int => pyformat entry.iamc (lvls.map (fun cs =>
      (cs.1, ((rowLookup R.names r.1 cs.1).bind (fun k => List.lookup k cs.2)).getD "nan"))))
      R.rows = some vs := by
    have hc := omap_congr
      (fun r : List String × Int => pyformat entry.iamc
        ((restrictLevels lvls [] R).map (fun cs =>
          (cs.1, ((rowLookup R.names r.1 cs.1).bind (fun k => List.lookup k cs.2)).getD "nan"))))
      (fun r : List String × Int => pyformat entry.iamc (lvls.map (fun cs =>
        (cs.1, ((rowLookup R.names r.1 cs.1).bind (fun k => List.lookup k cs.2)).getD "nan"))))
      R.rows (fun ρ hρ => congrArg (pyformat entry.iamc) (hfmtarg ρ hρ))
    rw [← hc]
    exact homap0
  obtain ⟨hlenrv, hkl, hall, hknd, hcnames, hccol, hfa⟩ := iamcify_ok_inv R vs fr hfr
  have hrowvar : ∀ ρ ∈ R.rows, ∀ var,
      pyformat entry.iamc (lvls.map (fun cs =>
        (cs.1, ((rowLookup R.names ρ.1 cs.1).bind (fun k => List.lookup k cs.2)).getD "nan")))
        = some var →
      pydictLookup values (pyLower var)
        = some (pyJoin '|' (lvls.map (fun cs => (rowLookup R.names ρ.1 cs.1).getD ""))) := by
    intro ρ hρ var hvar
    have hpairsmem : (lvls.map (fun cs => ((rowLookup R.names ρ.1 cs.1).getD "",
        ((rowLookup R.names ρ.1 cs.1).bind (fun k => List.lookup k cs.2)).getD "nan")))
        ∈ cartProd (lvls.map (fun cs => cs.2)) := by
      rw [cartProd_mem]
      refine forall₂_map_map lvls _ _ _ ?_
      intro cs hcs
      obtain ⟨k, v, hk, hv, hkv⟩ := hcsfact ρ hρ cs hcs
      simpa [hk, hv] using hkv
    have hzipmem : ((lvls.map (fun cs => (rowLookup R.names ρ.1 cs.1).getD "")),
        (lvls.map (fun cs =>
          ((rowLookup R.names ρ.1 cs.1).bind (fun k => List.lookup k cs.2)).getD "nan")))
        ∈ ((cartProd (lvls.map (fun cs => cs.2.map Prod.fst))).zip
            (cartProd (lvls.map (fun cs => cs.2.map Prod.snd)))) := by
      have hmm : lvls.map (fun cs => cs.2.map Prod.fst)
          = (lvls.map (fun cs => cs.2)).map (fun l => l.map Prod.fst) := by
        rw [List.map_map]; rfl
      have hmm2 : lvls.map (fun cs => cs.2.map Prod.snd)
          = (lvls.map (fun cs => cs.2)).map (fun l => l.map Prod.snd) := by
        rw [List.map_map]; rfl
      rw [hmm, hmm2, cartProd_zip_unzip]
      refine List.mem_map.mpr ⟨_, hpairsmem, ?_⟩
      simp [List.map_map, Function.comp]
    obtain ⟨e, hemem, he⟩ := forall₂_mem_left (omap_some_forall₂ _ _ _ hdict) _ hzipmem
    simp only [List.zip_map'] at he
    rw [hvar] at he
    simp only [Option.map_some', Option.some.injEq] at he
    exact pydictLookup_of_mem_nodup values (pyLower var) _ hvalsnd (he ▸ hemem)
  have hsplit : ∀ ρ ∈ R.rows,
      pySplit '|' (pyJoin '|' (lvls.map (fun cs => (rowLookup R.names ρ.1 cs.1).getD "")))
        = lvls.map (fun cs => (rowLookup R.names ρ.1 cs.1).getD "") := by
    intro ρ hρ
    refine pySplit_pyJoin _ (by simpa using hlvlsne) ?_
    intro k hk c hc
    rcases List.mem_map.mp hk with ⟨cs, hcs, hkeq⟩
    obtain ⟨k', v', hk', hv', hkv'⟩ := hcsfact ρ hρ cs hcs
    have hkk : k = k' := by rw [← hkeq, hk']; rfl
    subst hkk
    exact hnopipe cs hcs (k, v') hkv' c hc
  have hvarcol : ∀ ρ ∈ R.rows, ∀ (var : String) (r1 : List String),
      omap (rowLookup (R.names ++ ["variable"]) (ρ.1 ++ [var])) IAMC_IDX = some r1 →
      rowLookup IAMC_IDX r1 "variable" = some var := by
    intro ρ hρ var r1 hom
    have h1 := omap_rowLookup_recover _ IAMC_IDX r1 hom "variable" (by decide)
    rw [h1, rowLookup_append R.names ρ.1 ["variable"] [var] "variable" (hwf₁ ρ hρ),
      if_neg hvarnot]
    simp [rowLookup, List.lookup]
  have hrestcol : ∀ n ∈ IAMC_IDX, n ≠ "variable" → n ∈ R.names := by
    intro n hn hne
    rcases List.mem_append.mp (hall n hn) with h | h
    · exact h
    · exact absurd (List.mem_singleton.mp h) hne
  have hreclook : ∀ ρ ∈ R.rows, ∀ (var : String) (r1 : List String),
      omap (rowLookup (R.names ++ ["variable"]) (ρ.1 ++ [var])) IAMC_IDX = some r1 →
      ∀ n ∈ IAMC_IDX, n ≠ "variable" →
      rowLookup IAMC_IDX r1 n = rowLookup R.names ρ.1 n := by
    intro ρ hρ var r1 hom n hn hne
    have h1 := omap_rowLookup_recover _ IAMC_IDX r1 hom n hn
    rw [h1, rowLookup_append R.names ρ.1 ["variable"] [var] n (hwf₁ ρ hρ),
      if_pos (hrestcol n hn hne)]
  have hRC : List.Forall₂ (fun (ρ r' : List String × Int) =>
      ρ ∈ R.rows ∧ ∃ var,
        pyformat entry.iamc (lvls.map (fun cs =>
          (cs.1, ((rowLookup R.names ρ.1 cs.1).bind (fun k => List.lookup k cs.2)).getD "nan")))
          = some var
        ∧ (r'.2 = ρ.2
          ∧ omap (rowLookup (R.names ++ ["variable"]) (ρ.1 ++ [var])) IAMC_IDX = some r'.1))
      R.rows fr.rows := by
    refine forall₂_imp_mem
      (forall₂_zip_left (omap_some_forall₂ _ _ _ homap) hfa) ?_
    intro ρ hρ r' hq
    exact ⟨hρ, hq⟩
  have hvrow : ∀ ρ ∈ R.rows, ∀ (r' : List String × Int) (var : String),
      pyformat entry.iamc (lvls.map (fun cs =>
        (cs.1, ((rowLookup R.names ρ.1 cs.1).bind (fun k => List.lookup k cs.2)).getD "nan")))
        = some var →
      omap (rowLookup (R.names ++ ["variable"]) (ρ.1 ++ [var])) IAMC_IDX = some r'.1 →
      ∃ rest, omap (rowLookup IAMC_IDX r'.1) (IAMC_IDX.filter (fun n => n ≠ "variable"))
          = some rest
        ∧ varwidxRow IAMC_IDX values (IAMC_IDX.filter (fun n => n ≠ "variable"))
            lvls.length r'
          = some (rest ++ lvls.map (fun cs => (rowLookup R.names ρ.1 cs.1).getD ""), r'.2) := by
    intro ρ hρ r' var hvar hom
    have hsuc : ∀ n ∈ IAMC_IDX.filter (fun n => n ≠ "variable"),
        ∃ w, rowLookup IAMC_IDX r'.1 n = some w := by
      intro n hn
      have hmf := List.mem_filter.mp hn
      have hne : n ≠ "variable" := by simpa using hmf.2
      obtain ⟨w, hw, -⟩ := rowLookup_zip_mem R.names ρ.1 n (hwf₁ ρ hρ)
        (hrestcol n hmf.1 hne)
      exact ⟨w, by rw [hreclook ρ hρ var r'.1 hom n hmf.1 hne]; exact hw⟩
    obtain ⟨rest, hrest⟩ := omap_of_forall_some (rowLookup IAMC_IDX r'.1)
      (IAMC_IDX.filter (fun n => n ≠ "variable")) hsuc
    refine ⟨rest, hrest, ?_⟩
    unfold varwidxRow
    simp only [hvarcol ρ hρ var r'.1 hom, hrowvar ρ hρ var hvar, hsplit ρ hρ,
      List.length_map, if_true, hrest, Option.map_some']
  have hpred : ∀ r' ∈ fr.rows,
      (match rowLookup IAMC_IDX r'.1 "variable" with
       | some s => varwidxMatches values s
       | none => false) = true := by
    intro r' hr'
    obtain ⟨ρ, hρmem, hρ, var, hvar, hv2, hom⟩ :=
      forall₂_mem_left (forall₂_swap hRC) r' hr'
    rw [hvarcol ρ hρ var r'.1 hom]
    show varwidxMatches values var = true
    unfold varwidxMatches
    rw [hrowvar ρ hρ var hvar]
    rfl
  have hfiltC : fr.rows.filter (fun r =>
      match rowLookup IAMC_IDX r.1 "variable" with
      | some s => varwidxMatches values s
      | none => false) = fr.rows := List.filter_eq_self.mpr hpred
  unfold _varwidx at hdec
  rw [hidx] at hdec
  simp only [hlvls] at hdec
  simp only [hdict] at hdec
  rw [hcnames, hccol] at hdec
  have hvmem : decide ("variable" ∈ IAMC_IDX) = true := by decide
  rw [if_pos hvmem, if_pos rfl, hfiltC] at hdec
  have hsome : ∀ r' ∈ fr.rows, ∃ d,
      varwidxRow IAMC_IDX values (IAMC_IDX.filter (fun n => n ≠ "variable")) lvls.length r'
        = some d := by
    intro r' hr'
    obtain ⟨ρ, hρmem, hρ, var, hvar, hv2, hom⟩ :=
      forall₂_mem_left (forall₂_swap hRC) r' hr'
    obtain ⟨rest, -, hrow⟩ := hvrow ρ hρ r' var hvar hom
    exact ⟨_, hrow⟩
  split at hdec
  next homN =>
    obtain ⟨bs, hbs⟩ := omap_of_forall_some _ fr.rows hsome
    rw [homN] at hbs
    exact absurd hbs (by simp)
  next rows' hrows' =>
  simp only [Except.ok.injEq] at hdec
  subst hdec
  have hF2 : List.Forall₂ (fun (r' d : List String × Int) =>
      varwidxRow IAMC_IDX values (IAMC_IDX.filter (fun n => n ≠ "variable")) lvls.length r'
        = some d) fr.rows rows' := omap_some_forall₂ _ _ _ hrows'
  have hfinal : List.Forall₂ (fun (ρ d : List String × Int) =>
      d.2 = ρ.2 ∧ ∀ n ∈ IAMC_IDX.filter (fun n => n ≠ "variable") ++ lvls.map Prod.fst,
        rowLookup (IAMC_IDX.filter (fun n => n ≠ "variable") ++ lvls.map Prod.fst) d.1 n
          = rowLookup R.names ρ.1 n) R.rows rows' := by
    refine forall₂_trans ?_ hRC hF2
    intro ρ r' d hP hVd
    obtain ⟨hρ, var, hvar, hv2, hom⟩ := hP
    obtain ⟨rest, hrest, hrow⟩ := hvrow ρ hρ r' var hvar hom
    rw [hVd] at hrow
    simp only [Option.some.injEq] at hrow
    subst hrow
    refine ⟨hv2, ?_⟩
    intro n hn
    have hrestlen : rest.length = (IAMC_IDX.filter (fun n => n ≠ "variable")).length :=
      omap_length _ _ _ hrest
    rw [rowLookup_append (IAMC_IDX.filter (fun n => n ≠ "variable")) rest
      (lvls.map Prod.fst) (lvls.map (fun cs => (rowLookup R.names ρ.1 cs.1).getD ""))
      n hrestlen]
    by_cases hnr : n ∈ IAMC_IDX.filter (fun n => n ≠ "variable")
    · rw [if_pos hnr]
      have hmf := List.mem_filter.mp hnr
      have hne : n ≠ "variable" := by simpa using hmf.2
      rw [omap_rowLookup_recover _ _ rest hrest n hnr]
      exact hreclook ρ hρ var r'.1 hom n hmf.1 hne
    · rw [if_neg hnr]
      have hnl : n ∈ lvls.map Prod.fst := (List.mem_append.mp hn).resolve_left hnr
      rcases List.mem_map.mp hnl with ⟨cs, hcs, hcseq⟩
      subst hcseq
      have hzz : rowLookup (lvls.map Prod.fst)
          (lvls.map (fun cs => (rowLookup R.names ρ.1 cs.1).getD "")) cs.1
          = List.lookup cs.1 (lvls.map (fun cs =>
              (cs.1, (rowLookup R.names ρ.1 cs.1).getD ""))) := by
        unfold rowLookup
        rw [List.zip_map']
      rw [hzz, lookup_map_sel lvls (fun cs => (rowLookup R.names ρ.1 cs.1).getD "")
        cs hcs hndl]
      obtain ⟨k, v, hk, -, -⟩ := hcsfact ρ hρ cs hcs
      rw [hk]
      rfl
  unfold Frame.equiv
  simp only [Bool.and_eq_true]
  refine ⟨⟨?_, ?_⟩, ?_⟩
  · rw [List.all_eq_true]
    intro n hn
    simp only [decide_eq_true_eq]
    rcases List.mem_append.mp hn with h | h
    · have hmf := List.mem_filter.mp h
      exact hrestcol n hmf.1 (by simpa using hmf.2)
    · rcases List.mem_map.mp h with ⟨cs, hcs, hcseq⟩
      exact hcseq ▸ (hcolmem cs hcs).1
  · rw [List.all_eq_true]
    intro n hn
    simp only [decide_eq_true_eq]
    by_cases hni : n ∈ IAMC_IDX
    · refine List.mem_append.mpr (Or.inl (List.mem_filter.mpr ⟨hni, ?_⟩))
      have hne : n ≠ "variable" := fun he => hvarnot (he ▸ hn)
      simpa using hne
    · exact List.mem_append.mpr (Or.inr (husercols n hn hni))
  · exact rowsEquiv_of_forall₂ _ _ (forall₂_swap hfinal)


/-- Witness for the amended C1 at a concrete templated entry whose configured
level universe strictly contains the values occurring in the data. -/
theorem roundtrip_up_to_defaults_witness :
    Frame.equiv
      { names := ["model", "scenario", "region", "unit", "year", "technology"]
        colName := "capacity"
        rows := [(["m", "s", "r", "u", "2030", "wind"], 10)] }
      (resolve_idxcol_defaults
        [("model", .value "m"), ("scenario", .value "s"), ("region", .value "r"),
         ("unit", .value "u"), ("year", .value "2030"),
         ("technology", .levels [("wind", "Wind"), ("pv", "Solar PV")])]
        { names := ["technology"], colName := "capacity", rows := [(["wind"], 10)] })
      = true :=
  roundtrip_up_to_defaults
    [("model", .value "m"), ("scenario", .value "s"), ("region", .value "r"),
     ("unit", .value "u"), ("year", .value "2030"),
     ("technology", .levels [("wind", "Wind"), ("pv", "Solar PV")])]
    { path := "capacity.csv", idxcols := ["technology"]
      iamc := "Capacity|{technology}", agg := [] }
    { names := ["technology"], colName := "capacity", rows := [(["wind"], 10)] }
    (resolve_idxcol_defaults
      [("model", .value "m"), ("scenario", .value "s"), ("region", .value "r"),
       ("unit", .value "u"), ("year", .value "2030"),
       ("technology", .levels [("wind", "Wind"), ("pv", "Solar PV")])]
      { names := ["technology"], colName := "capacity", rows := [(["wind"], 10)] })
    [("technology", [("wind", "Wind"), ("pv", "Solar PV")])]
    [("capacity|wind", "wind"), ("capacity|solar pv", "pv")]
    { names := IAMC_IDX, colName := "value"
      rows := [(["m", "s", "r", "Capacity|Wind", "u", "2030"], 10)] }
    { names := ["model", "scenario", "region", "unit", "year", "technology"]
      colName := "capacity"
      rows := [(["m", "s", "r", "u", "2030", "wind"], 10)] }
    rfl rfl (by decide) (by decide) (by decide) (by rfl) (by rfl) (by decide)
    (by
      intro r hr cs hcs v hv
      have hr2 : r ∈ [((["wind", "m", "s", "r", "u", "2030"] : List String),
          (10 : Int))] := hr
      rw [List.mem_singleton] at hr2 hcs
      subst hr2
      subst hcs
      have hv2 : some "wind" = some v := hv
      cases hv2
      decide)
    (by decide) (by decide) (by decide) (by decide) (by rfl) (by decide)
    (by rfl) (by rfl)

end FriendlyData
